import Mathlib

/-!
# Verification of the night-train-data station-grouping and search core

This file gives a shallow embedding of the two algorithmic source files of the
repository and proves the specification claims about them:

* `webapp/scripts/generate-station-groups.js` — complete-linkage clustering of
  stations via a union-find over a distance-sorted merge queue
  (`groupStations`), the group-label heuristic (`longestCommonPrefix`,
  modelled here as `longestCommonPrefixOf`), and the dominant-country
  computation (`getMostCommonCountry`);
* `webapp/src/utils/searchInStationGroups.js` — the filtered, ranked,
  limited search over station groups (`searchStationGroups`).

Modelling conventions:

* JS numbers are modelled as `ℚ` (exact arithmetic standing in for IEEE
  doubles).  `parseFloat` results are modelled as `Option ℚ`, `none` standing
  for `NaN`; the `!isNaN` coordinate filter keeps exactly the `some` records.
* The turf great-circle distance (`calculateDistance`) is transcendental, so
  `groupStations` is parameterised by an arbitrary distance function
  `calcDist : Station → Station → ℚ`.  The algorithm only ever *compares*
  distances, never adds them, so every theorem proved for all (symmetric)
  `calcDist` covers the haversine instance.  Counterexamples use a distance
  function that is realisable by the haversine distance: for stations placed
  on the equator the great-circle distance is proportional to the absolute
  longitude difference, which is what `lineDist` below computes (with the
  constant of proportionality folded into the coordinates and thresholds).
* JS strings are modelled as Lean `String`; `toLowerCase`, `trim`, `includes`,
  `startsWith`, default `sort()` comparison and `localeCompare` are modelled
  on the underlying character list (`lowerStr`, `trimStr`, `strIncludes`,
  `strStartsWith`, `strLt`, `localeCompareM`).  `localeCompare` is modelled as
  code-point comparison (the default-locale collation agrees with it on the
  ASCII station names the claims are about), and `toLowerCase` as
  character-wise lowercasing.
* `Array.prototype.sort` is stable (ES2019); it is modelled by the stable
  insertion sort `stableSort`.
* JS objects/Maps are modelled as association lists in key-insertion order
  (`Object.entries`, `Object.keys` and `Map` iteration all follow insertion
  order for the non-numeric keys used here).
-/

namespace NightTrain

/-! ## JS string primitives -/

/-- JS code-unit `<` on strings (also the default `Array.prototype.sort`
comparison), modelled as lexicographic comparison of the character lists. -/
def ltChars : List Char → List Char → Bool
  | [], [] => false
  | [], _ :: _ => true
  | _ :: _, [] => false
  | a :: as, b :: bs =>
    if a < b then true else if b < a then false else ltChars as bs

/-- JS string `a < b` (code-unit lexicographic). -/
def strLt (a b : String) : Bool := ltChars a.data b.data

/-- `a ≤ b` in JS code-unit order. -/
def strLe (a b : String) : Bool := ! strLt b a

/-- Models `String.prototype.toLowerCase` (character-wise lowercasing). -/
def lowerStr (s : String) : String := ⟨s.data.map Char.toLower⟩

/-- Drop trailing whitespace characters. -/
def dropTrailingWs (l : List Char) : List Char :=
  (l.reverse.dropWhile Char.isWhitespace).reverse

/-- Models `String.prototype.trim`: removes leading **and** trailing
whitespace. -/
def trimStr (s : String) : String :=
  ⟨dropTrailingWs (s.data.dropWhile Char.isWhitespace)⟩

/-- Models `String.prototype.includes` (substring test). -/
def strIncludes (s sub : String) : Bool := decide (sub.data <:+: s.data)

/-- Models `String.prototype.startsWith`. -/
def strStartsWith (s p : String) : Bool := decide (p.data <+: s.data)

/-- Models `a.localeCompare(b)` as code-point comparison: negative, zero or
positive according to the relative order of `a` and `b`. -/
def localeCompareM (a b : String) : ℤ :=
  if strLt a b then -1 else if strLt b a then 1 else 0

/-! ## Stable sort (models `Array.prototype.sort`, stable per ES2019) -/

/-- Insert `a` into `l` after every element `b` with `le b a`; used by
`stableSort`. -/
def insertKeep (le : α → α → Bool) (a : α) : List α → List α
  | [] => [a]
  | b :: l => if le b a then b :: insertKeep le a l else a :: b :: l

/-- Stable insertion sort: elements are processed in input order and each is
inserted after all previously placed elements that are `≤` it, so elements
that compare equal keep their input order — the behaviour ES2019 requires of
`Array.prototype.sort` with a consistent comparator. -/
def stableSort (le : α → α → Bool) (l : List α) : List α :=
  l.foldl (fun acc a => insertKeep le a acc) []

/-! ## Data model -/

/-- A raw stop record as read from `stops.json` (input boundary of
`generate-station-groups.js`).  `stop_lat`/`stop_lon` hold the result of
`parseFloat` on the raw strings, `none` standing for `NaN`; `stop_country`
uses `""` for a missing country code. -/
structure Stop where
  stop_name : String
  stop_lat : Option ℚ
  stop_lon : Option ℚ
  stop_country : String
deriving DecidableEq, Repr

/-- A station record of `stopsArray`: a stop that passed the coordinate
filter, enriched with its `stop_id` and parsed `lat`/`lon`. -/
structure Station where
  stop_id : String
  stop_name : String
  stop_country : String
  lat : ℚ
  lon : ℚ
deriving DecidableEq, Repr

instance : Inhabited Station := ⟨⟨"", "", "", 0, 0⟩⟩

/-- An output record of `groupStations` (the `StationGroup` shape pushed onto
`groups`). -/
structure StationGroup where
  groupName : String
  displayName : String
  isGroup : Bool
  stations : List Station
  lat : ℚ
  lon : ℚ
  stop_country : String
deriving DecidableEq, Repr

instance : Inhabited StationGroup := ⟨⟨"", "", false, [], 0, 0, ""⟩⟩

/-! ## generate-station-groups.js -/

/-- `getMostCommonCountry`'s frequency object: `countryFreq[c] =
(countryFreq[c] || 0) + 1`, with object keys in insertion order. -/
def bumpCountry (freq : List (String × ℕ)) (c : String) : List (String × ℕ) :=
  if freq.any fun kv => kv.1 = c then
    freq.map fun kv => if kv.1 = c then (kv.1, kv.2 + 1) else kv
  else freq ++ [(c, 1)]

/-- `getMostCommonCountry(stations)`: frequency count over the truthy
(non-empty) country codes, then `Object.keys(countryFreq).reduce((a, b) =>
countryFreq[a] > countryFreq[b] ? a : b)`, or `''` when the frequency object
is empty.  The association list carries each key with its count, so the
`reduce` over keys is the fold over the pairs. -/
def getMostCommonCountry (stations : List Station) : String :=
  let countryFreq := stations.foldl
    (fun freq s => if s.stop_country ≠ "" then bumpCountry freq s.stop_country else freq) []
  match countryFreq with
  | [] => ""
  | kv :: rest => (rest.foldl (fun a b => if a.2 > b.2 then a else b) kv).1

/-- The character-by-character `while` loop of `longestCommonPrefix`: longest
common leading segment of two character lists. -/
def commonPrefixChars : List Char → List Char → List Char
  | a :: as, b :: bs => if a = b then a :: commonPrefixChars as bs else []
  | _, _ => []

/-- `longestCommonPrefix(strings)` of the source (renamed, same behaviour):
`''` for an empty list, `strings[0].trim()` for a one-element list, and
otherwise the common leading segment of the first and last elements of the
default-sorted copy, passed through `.trim()`. -/
def longestCommonPrefixOf (strings : List String) : String :=
  match strings with
  | [] => ""
  | [s] => trimStr s
  | _ =>
    let sorted := stableSort strLe strings
    let first := sorted.getD 0 ""
    let last := sorted.getD (sorted.length - 1) ""
    trimStr ⟨commonPrefixChars first.data last.data⟩

/-- The `Object.entries(stops).map(...).filter(...)` prologue of
`groupStations`: parse coordinates, keep the records whose latitude and
longitude both parsed (`!isNaN`), tagging each with its key as `stop_id`. -/
def stopsArrayOf (stops : List (String × Stop)) : List Station :=
  stops.filterMap fun p =>
    match p.2.stop_lat, p.2.stop_lon with
    | some la, some lo =>
      some { stop_id := p.1, stop_name := p.2.stop_name,
             stop_country := p.2.stop_country, lat := la, lon := lo }
    | _, _ => none

/-- One entry of the merge queue: indices `i < j` into `stopsArray` and their
distance. -/
structure MergeCand where
  i : ℕ
  j : ℕ
  dist : ℚ
deriving DecidableEq, Repr

/-- The double loop building `mergeQueue`: all pairs `i < j` whose distance is
`≤ maxDistance`, in `(i, j)` index order. -/
def buildMergeQueue (calcDist : Station → Station → ℚ) (arr : List Station)
    (maxDistance : ℚ) : List MergeCand :=
  (List.range arr.length).flatMap fun i =>
    ((List.range arr.length).filter fun j => decide (i < j)).filterMap fun j =>
      let d := calcDist (arr.getD i default) (arr.getD j default)
      if d ≤ maxDistance then some ⟨i, j, d⟩ else none

/-- Union-find state of the merge loop: `parent` array and per-root member
lists (`clusterStations`), both of length `n`. -/
structure UFState where
  parent : List ℕ
  clusterStations : List (List ℕ)
deriving Repr

/-- `find(x)` with path compression:
`if (parent[x] !== x) { parent[x] = find(parent[x]); } return parent[x];`.
The source recursion terminates because the parent forest is acyclic; the
embedding makes this explicit with a fuel argument (always called with fuel
`parent.length`, enough for any acyclic forest — see `findAux_spec`).
Returns the root together with the compressed parent array. -/
def findAux : ℕ → List ℕ → ℕ → ℕ × List ℕ
  | 0, p, x => (x, p)
  | fuel + 1, p, x =>
    let px := p.getD x x
    if px = x then (x, p)
    else
      let rp := findAux fuel p px
      (rp.1, rp.2.set x rp.1)

/-- One iteration of the merge loop: find the two roots (compressing paths),
skip if equal, otherwise check the complete-linkage constraint over the two
member lists and merge if it holds.  The source breaks out of the double
validation loop at the first violating pair; `List.all` computes the same
truth value. -/
def mergeStep (calcDist : Station → Station → ℚ) (arr : List Station)
    (maxDistance : ℚ) (s : UFState) (c : MergeCand) : UFState :=
  let f1 := findAux s.parent.length s.parent c.i
  let rootI := f1.1
  let f2 := findAux f1.2.length f1.2 c.j
  let rootJ := f2.1
  let p := f2.2
  if rootI = rootJ then ⟨p, s.clusterStations⟩
  else
    let stationsI := s.clusterStations.getD rootI []
    let stationsJ := s.clusterStations.getD rootJ []
    let valid := stationsI.all fun si => stationsJ.all fun sj =>
      decide (calcDist (arr.getD si default) (arr.getD sj default) ≤ maxDistance)
    if valid then
      ⟨p.set rootJ rootI,
       (s.clusterStations.set rootI (stationsI ++ stationsJ)).set rootJ []⟩
    else ⟨p, s.clusterStations⟩

/-- `clusterMap.get(root).push(station)`, creating the entry if absent; the
`Map` iterates in key-insertion order, modelled by an association list. -/
def pushToCluster (m : List (ℕ × List Station)) (root : ℕ) (st : Station) :
    List (ℕ × List Station) :=
  if m.any fun kv => kv.1 = root then
    m.map fun kv => if kv.1 = root then (kv.1, kv.2 ++ [st]) else kv
  else m ++ [(root, [st])]

/-- The final-cluster loop: for each `i`, find its root (still compressing
paths) and append `stopsArray[i]` to that root's bucket. -/
def buildClusterFold (arr : List Station) (p0 : List ℕ) :
    List (ℕ × List Station) × List ℕ :=
  (List.range arr.length).foldl
    (fun acc i =>
      let f := findAux acc.2.length acc.2 i
      (pushToCluster acc.1 f.1 (arr.getD i default), f.2))
    ([], p0)

/-- Cluster-to-group conversion (the `clusterMap.forEach` body).  A singleton
cluster yields a non-group entry; a multi-station cluster is named by the
longest common prefix of the member names (with the `Cluster (…)` fallback
when that is empty or shorter than `MIN_GROUP_NAME_LENGTH = 3`), given the
arithmetic-mean centroid, its members sorted by `localeCompare` on name, and
the dominant country computed from the sorted member list (the in-place
`stations.sort` in the object literal runs before `getMostCommonCountry`). -/
def mkGroup (stations : List Station) : StationGroup :=
  match stations with
  | [station] =>
    { groupName := station.stop_name, displayName := station.stop_name,
      isGroup := false, stations := [station],
      lat := station.lat, lon := station.lon,
      stop_country := station.stop_country }
  | _ =>
    let stationNames := stations.map (·.stop_name)
    let lcpName := longestCommonPrefixOf stationNames
    let groupName :=
      if lcpName = "" ∨ lcpName.data.length < 3 then
        "Cluster (" ++ (stableSort strLe stationNames).getD 0 "" ++ ", ...)"
      else lcpName
    let avgLat := (stations.foldl (fun sum s => sum + s.lat) (0 : ℚ)) / (stations.length : ℚ)
    let avgLon := (stations.foldl (fun sum s => sum + s.lon) (0 : ℚ)) / (stations.length : ℚ)
    let sortedStations :=
      stableSort (fun a b => decide (localeCompareM a.stop_name b.stop_name ≤ 0)) stations
    { groupName := groupName,
      displayName := groupName ++ " (" ++ toString stations.length ++ " stations)",
      isGroup := true,
      stations := sortedStations,
      lat := avgLat, lon := avgLon,
      stop_country := getMostCommonCountry sortedStations }

/-- `groupStations(stops, maxDistance)` of `generate-station-groups.js`
(the union-find / sorted-queue complete-linkage variant), parameterised by
the distance function.  The merge queue is sorted by the comparator
`(a, b) => a.dist - b.dist` — a stable sort by nondecreasing distance. -/
def groupStations (calcDist : Station → Station → ℚ) (stops : List (String × Stop))
    (maxDistance : ℚ) : List StationGroup :=
  let stopsArray := stopsArrayOf stops
  let n := stopsArray.length
  let mergeQueue := stableSort (fun a b => decide (a.dist ≤ b.dist))
    (buildMergeQueue calcDist stopsArray maxDistance)
  let init : UFState := ⟨List.range n, (List.range n).map fun i => [i]⟩
  let final := mergeQueue.foldl (mergeStep calcDist stopsArray maxDistance) init
  let clusterMap := (buildClusterFold stopsArray final.parent).1
  clusterMap.map fun kv => mkGroup kv.2

/-! ## searchInStationGroups.js -/

/-- The `filter` predicate of `searchStationGroups`: the lower-cased query is
a substring of the group name, the display name, the (truthy) country code,
or some member station's name. -/
def matchesSearch (lowerSearch : String) (group : StationGroup) : Bool :=
  strIncludes (lowerStr group.groupName) lowerSearch ||
  strIncludes (lowerStr group.displayName) lowerSearch ||
  (decide (group.stop_country ≠ "") && strIncludes (lowerStr group.stop_country) lowerSearch) ||
  group.stations.any fun station => strIncludes (lowerStr station.stop_name) lowerSearch

/-- The ranking comparator of `searchStationGroups` (negative means `a` ranks
before `b`): exact match on group name, exact match on display name, prefix
match on group name, prefix match on display name, grouped entries before
single stations with larger groups first, and finally
`aDisplay.localeCompare(bDisplay)` on the lower-cased display names. -/
def searchCmp (lowerSearch : String) (a b : StationGroup) : ℤ :=
  let aName := lowerStr a.groupName
  let bName := lowerStr b.groupName
  let aDisplay := lowerStr a.displayName
  let bDisplay := lowerStr b.displayName
  let aExactGroup := aName = lowerSearch
  let bExactGroup := bName = lowerSearch
  if aExactGroup ∧ ¬bExactGroup then -1
  else if ¬aExactGroup ∧ bExactGroup then 1
  else
    let aExactDisplay := aDisplay = lowerSearch
    let bExactDisplay := bDisplay = lowerSearch
    if aExactDisplay ∧ ¬bExactDisplay then -1
    else if ¬aExactDisplay ∧ bExactDisplay then 1
    else
      let aStartsGroup := strStartsWith aName lowerSearch
      let bStartsGroup := strStartsWith bName lowerSearch
      if aStartsGroup ∧ ¬bStartsGroup then -1
      else if ¬aStartsGroup ∧ bStartsGroup then 1
      else
        let aStartsDisplay := strStartsWith aDisplay lowerSearch
        let bStartsDisplay := strStartsWith bDisplay lowerSearch
        if aStartsDisplay ∧ ¬bStartsDisplay then -1
        else if ¬aStartsDisplay ∧ bStartsDisplay then 1
        else if a.isGroup ∧ b.isGroup ∧ b.stations.length ≠ a.stations.length then
          (b.stations.length : ℤ) - (a.stations.length : ℤ)
        else if a.isGroup ∧ ¬b.isGroup then -1
        else if ¬a.isGroup ∧ b.isGroup then 1
        else localeCompareM aDisplay bDisplay

/-- `searchStationGroups(groups, searchTerm, limit)`: empty result for a
falsy (empty) search term, otherwise filter, stable-sort by the ranking
comparator and take the first `limit` entries (`slice(0, limit)`; the claims
only concern non-negative limits, hence `limit : ℕ`). -/
def searchStationGroups (groups : List StationGroup) (searchTerm : String)
    (limit : ℕ) : List StationGroup :=
  if searchTerm = "" then []
  else
    let lowerSearch := lowerStr searchTerm
    (stableSort (fun a b => decide (searchCmp lowerSearch a b ≤ 0))
      (groups.filter (matchesSearch lowerSearch))).take limit

/-! ## Concrete instances used by witnesses and counterexamples -/

/-- The rational `z/1`, built without normalisation so that concrete
computations stay kernel-reducible. -/
def intToRat (z : ℤ) : ℚ := ⟨z, 1, one_ne_zero, Nat.coprime_one_right _⟩

/-- Distance function for stations on the equator: the great-circle distance
between two points on the equator (less than half the circumference apart) is
proportional to their absolute longitude difference, so with the
proportionality constant folded into the coordinate/threshold units this is a
haversine-realisable distance. -/
def lineDist (a b : Station) : ℚ := intToRat ((a.lon.num - b.lon.num).natAbs)

/-- A stop on the equator at integral longitude `lon`, for concrete runs. -/
def equatorStop (id name : String) (lon : ℤ) : String × Stop :=
  (id, { stop_name := name, stop_lat := some (intToRat 0),
         stop_lon := some (intToRat lon), stop_country := "" })

/-- Stations on a line at positions 0, 4, 7 and 9 (equator longitudes): under
threshold 4 the clustering yields groups `{X, Y}` and `{Z, W}`, under
threshold 5 it yields `{X}` and `{Y, Z, W}` — station `X`'s group shrinks
when the threshold grows. -/
def c3SizeStops : List (String × Stop) :=
  [equatorStop "x" "X" 0, equatorStop "y" "Y" 4,
   equatorStop "z" "Z" 7, equatorStop "w" "W" 9]

/-- Stations on a line at positions 0, 4, 5, 8, 10 and 13: threshold 5 yields
2 groups, threshold 6 yields 3 groups — the group count grows with the
threshold. -/
def c3CountStops : List (String × Stop) :=
  [equatorStop "a" "A" 0, equatorStop "b" "B" 4, equatorStop "c" "C" 5,
   equatorStop "d" "D" 8, equatorStop "e" "E" 10, equatorStop "f" "F" 13]

/-- Two far-apart pairs of stations whose members carry the same two names,
so both multi-station clusters fall back to the same synthetic label. -/
def c9Stops : List (String × Stop) :=
  [equatorStop "s1" "S" 0, equatorStop "s2" "T" 1,
   equatorStop "s3" "S" 100, equatorStop "s4" "T" 101]

/-! ## Spec-side definitions (used to state claims, not taken from the code) -/

/-- Spec wording of the search filter (§4.5): the lower-cased query is a
substring of the group's name, its display name, its country code, or some
member station's display name. -/
def eligibleFor (lowerSearch : String) (g : StationGroup) : Prop :=
  strIncludes (lowerStr g.groupName) lowerSearch = true ∨
  strIncludes (lowerStr g.displayName) lowerSearch = true ∨
  strIncludes (lowerStr g.stop_country) lowerSearch = true ∨
  ∃ st ∈ g.stations, strIncludes (lowerStr st.stop_name) lowerSearch = true

/-- The ranking described by the search claims, as a relation between two
result entries `a` (earlier) and `b` (later): each tier constrains the order
only when all earlier tiers tie. -/
def rankedBefore (q : String) (a b : StationGroup) : Prop :=
  let aEG := lowerStr a.groupName = q
  let bEG := lowerStr b.groupName = q
  let aED := lowerStr a.displayName = q
  let bED := lowerStr b.displayName = q
  let aSG := strStartsWith (lowerStr a.groupName) q = true
  let bSG := strStartsWith (lowerStr b.groupName) q = true
  let aSD := strStartsWith (lowerStr a.displayName) q = true
  let bSD := strStartsWith (lowerStr b.displayName) q = true
  (bEG → aEG) ∧
  ((aEG ↔ bEG) → bED → aED) ∧
  ((aEG ↔ bEG) → (aED ↔ bED) → bSG → aSG) ∧
  ((aEG ↔ bEG) → (aED ↔ bED) → (aSG ↔ bSG) → bSD → aSD) ∧
  ((aEG ↔ bEG) → (aED ↔ bED) → (aSG ↔ bSG) → (aSD ↔ bSD) →
    (b.isGroup = true → a.isGroup = true) ∧
    (a.isGroup = true → b.isGroup = true → b.stations.length ≤ a.stations.length)) ∧
  ((aEG ↔ bEG) → (aED ↔ bED) → (aSG ↔ bSG) → (aSD ↔ bSD) →
    a.isGroup = b.isGroup → (a.isGroup = true → a.stations.length = b.stations.length) →
    strLe (lowerStr a.displayName) (lowerStr b.displayName) = true)

/-- `0` for a tier that matches, `1` for one that does not (matching entries
rank first). -/
def boolRank (b : Bool) : ℕ := if b then 0 else 1

/-- Sort key characterising the comparator `searchCmp`: the five boolean
tiers packed (in tier order) into one natural number, then the negated group
size, then the lower-cased display name. -/
def searchKey (q : String) (g : StationGroup) : ℕ × ℤ × String :=
  (16 * boolRank (decide (lowerStr g.groupName = q)) +
   8 * boolRank (decide (lowerStr g.displayName = q)) +
   4 * boolRank (strStartsWith (lowerStr g.groupName) q) +
   2 * boolRank (strStartsWith (lowerStr g.displayName) q) +
   boolRank g.isGroup,
   (if g.isGroup then -(g.stations.length : ℤ) else 0),
   lowerStr g.displayName)

/-- Lexicographic comparison of `searchKey` values. -/
def keyLe (k k' : ℕ × ℤ × String) : Prop :=
  k.1 < k'.1 ∨ (k.1 = k'.1 ∧
    (k.2.1 < k'.2.1 ∨ (k.2.1 = k'.2.1 ∧ strLe k.2.2 k'.2.2 = true)))

/-- The true longest common leading segment of *all* strings in the list
(spec §4.2 describes `longestCommonPrefix` as computing this). -/
def allCommonChars : List String → List Char
  | [] => []
  | s :: rest => rest.foldl (fun acc t => commonPrefixChars acc t.data) s.data

/-- The value the spec's words assign to the label heuristic on a list of two
or more names: the longest shared leading substring of all names, trimmed of
*trailing* whitespace only. -/
def specLcpTrailingTrim (strings : List String) : String :=
  ⟨dropTrailingWs (allCommonChars strings)⟩

/-! ## Union-find proof vocabulary -/

/-- One parent-pointer step (out-of-range entries are their own parents,
matching `findAux`'s use of `getD`). -/
def ufStep (p : List ℕ) (x : ℕ) : ℕ := p.getD x x

/-- `k`-fold iteration of `ufStep`. -/
def ufIter (p : List ℕ) : ℕ → ℕ → ℕ
  | 0, x => x
  | k + 1, x => ufIter p k (ufStep p x)

/-- `x` is a root of the parent forest. -/
def IsUFRoot (p : List ℕ) (x : ℕ) : Prop := ufStep p x = x

/-- The parent chain from `x` reaches the root `r`. -/
def IsRootOf (p : List ℕ) (x r : ℕ) : Prop :=
  (∃ k, ufIter p k x = r) ∧ IsUFRoot p r

/-- Well-formedness of a parent array of length `n`: in-range entries point
in range and every chain reaches a root. -/
def UFGood (n : ℕ) (p : List ℕ) : Prop :=
  p.length = n ∧ (∀ x, x < n → ufStep p x < n) ∧ (∀ x, x < n → ∃ r, IsRootOf p x r)

/-- Canonical root function: `p.length` steps along the parent chain (enough
for any well-formed forest). -/
def ufRootD (p : List ℕ) (x : ℕ) : ℕ := ufIter p p.length x

/-- Invariant of the merge loop of `groupStations`: the parent forest is
well-formed, each root's bucket in `clusterStations` lists exactly the
indices whose chain reaches that root (without duplicates), and all members
of one bucket are pairwise within `D` of each other (the complete-linkage
invariant). -/
structure MergeInv (calcDist : Station → Station → ℚ) (arr : List Station) (D : ℚ)
    (s : UFState) : Prop where
  good : UFGood arr.length s.parent
  clen : s.clusterStations.length = arr.length
  mem_iff : ∀ r, IsUFRoot s.parent r → r < arr.length →
    ∀ x, x ∈ s.clusterStations.getD r [] ↔ x < arr.length ∧ IsRootOf s.parent x r
  nodup : ∀ r, (s.clusterStations.getD r []).Nodup
  linkage : ∀ r, IsUFRoot s.parent r → r < arr.length →
    ∀ a ∈ s.clusterStations.getD r [], ∀ b ∈ s.clusterStations.getD r [], a ≠ b →
      calcDist (arr.getD a default) (arr.getD b default) ≤ D

/-- Invariant of the final cluster-building fold: after the first `k`
stations have been processed, the threaded parent array is root-equivalent to
the post-merge parent `pM`, the association list has distinct keys, and each
key's bucket holds exactly the stations with indices below `k` whose
`pM`-root is that key, in index order. -/
structure BuildInv (arr : List Station) (pM : List ℕ) (k : ℕ)
    (acc : List (ℕ × List Station) × List ℕ) : Prop where
  good : UFGood arr.length acc.2
  hiff : ∀ y s, IsRootOf acc.2 y s ↔ IsRootOf pM y s
  keys_nodup : (acc.1.map Prod.fst).Nodup
  buckets : ∀ kv ∈ acc.1,
    kv.2 = ((List.range k).filter fun i => decide (ufRootD pM i = kv.1)).map
      fun i => arr.getD i default
  complete : ∀ i, i < k → ufRootD pM i ∈ acc.1.map Prod.fst
  keys_from : ∀ kv ∈ acc.1, ∃ i, i < k ∧ ufRootD pM i = kv.1

/-- Stop list used by the C10 witness: a single station with an empty
country code. -/
def c10Stops : List (String × Stop) := [equatorStop "a" "A" 0]

/-- A one-element group list used by search witnesses. -/
def c5Groups : List StationGroup :=
  [{ groupName := "Alpha", displayName := "Alpha", isGroup := false,
     stations := [⟨"a1", "Alpha", "", intToRat 0, intToRat 0⟩],
     lat := intToRat 0, lon := intToRat 0, stop_country := "" }]

/-! # Theorems

## Stable sort -/

theorem insertKeep_perm (le : α → α → Bool) (a : α) (l : List α) :
    (insertKeep le a l).Perm (a :: l) := by
  induction l with
  | nil => exact List.Perm.refl _
  | cons b t ih =>
    unfold insertKeep
    cases h : le b a with
    | true =>
      simp only [if_true]
      exact (ih.cons b).trans (List.Perm.swap a b t)
    | false =>
      simp only [Bool.false_eq_true, if_false]
      exact List.Perm.refl _

theorem stableSort_foldl_perm (le : α → α → Bool) (l acc : List α) :
    (l.foldl (fun acc a => insertKeep le a acc) acc).Perm (acc ++ l) := by
  induction l generalizing acc with
  | nil => simp
  | cons a t ih =>
    have h1 := ih (insertKeep le a acc)
    have h2 : (insertKeep le a acc ++ t).Perm ((a :: acc) ++ t) :=
      (insertKeep_perm le a acc).append_right t
    exact (h1.trans h2).trans List.perm_middle.symm

theorem stableSort_perm (le : α → α → Bool) (l : List α) :
    (stableSort le l).Perm l := by
  simpa using stableSort_foldl_perm le l []

theorem mem_stableSort (le : α → α → Bool) (l : List α) (a : α) :
    a ∈ stableSort le l ↔ a ∈ l :=
  (stableSort_perm le l).mem_iff

theorem length_stableSort (le : α → α → Bool) (l : List α) :
    (stableSort le l).length = l.length :=
  (stableSort_perm le l).length_eq

theorem pairwise_insertKeep (le : α → α → Bool)
    (htot : ∀ a b, le a b = true ∨ le b a = true)
    (htrans : ∀ a b c, le a b = true → le b c = true → le a c = true)
    (a : α) (l : List α) (h : l.Pairwise (fun x y => le x y = true)) :
    (insertKeep le a l).Pairwise (fun x y => le x y = true) := by
  induction l with
  | nil => simp [insertKeep]
  | cons b t ih =>
    rw [List.pairwise_cons] at h
    unfold insertKeep
    cases hba : le b a with
    | true =>
      simp only [if_true, List.pairwise_cons]
      refine ⟨fun y hy => ?_, ih h.2⟩
      rcases List.mem_cons.1 ((insertKeep_perm le a t).mem_iff.1 hy) with hya | hyt
      · exact hya ▸ hba
      · exact h.1 y hyt
    | false =>
      simp only [Bool.false_eq_true, if_false, List.pairwise_cons]
      have hab : le a b = true := (htot a b).resolve_right (by simp [hba])
      refine ⟨fun y hy => ?_, h.1, h.2⟩
      rcases List.mem_cons.1 hy with hyb | hyt
      · exact hyb ▸ hab
      · exact htrans a b y hab (h.1 y hyt)

theorem stableSort_pairwise (le : α → α → Bool)
    (htot : ∀ a b, le a b = true ∨ le b a = true)
    (htrans : ∀ a b c, le a b = true → le b c = true → le a c = true)
    (l : List α) :
    (stableSort le l).Pairwise (fun x y => le x y = true) := by
  suffices h : ∀ acc, acc.Pairwise (fun x y => le x y = true) →
      (l.foldl (fun acc a => insertKeep le a acc) acc).Pairwise (fun x y => le x y = true) by
    exact h [] (List.Pairwise.nil)
  induction l with
  | nil => exact fun acc hacc => hacc
  | cons a t ih =>
    exact fun acc hacc => ih _ (pairwise_insertKeep le htot htrans a acc hacc)

/-! ## Character-list order -/

theorem ltChars_irrefl (l : List Char) : ltChars l l = false := by
  induction l with
  | nil => rfl
  | cons a t ih => simp [ltChars, ih]

theorem ltChars_asymm (a b : List Char) (h : ltChars a b = true) :
    ltChars b a = false := by
  induction a generalizing b with
  | nil =>
    cases b with
    | nil => simp [ltChars] at h
    | cons y ys => simp [ltChars]
  | cons x xs ih =>
    cases b with
    | nil => simp [ltChars] at h
    | cons y ys =>
      simp only [ltChars] at h ⊢
      by_cases hxy : x < y
      · have : ¬ y < x := fun hyx => absurd hxy (lt_asymm hyx)
        simp [hxy, this]
      · by_cases hyx : y < x
        · simp [hxy, hyx] at h
        · simp only [hxy, if_false, hyx] at h ⊢
          simp [ih ys h]

theorem ltChars_antisymm (a b : List Char) (hab : ltChars a b = false)
    (hba : ltChars b a = false) : a = b := by
  induction a generalizing b with
  | nil =>
    cases b with
    | nil => rfl
    | cons y ys => simp [ltChars] at hab
  | cons x xs ih =>
    cases b with
    | nil => simp [ltChars] at hba
    | cons y ys =>
      simp only [ltChars] at hab hba
      by_cases hxy : x < y
      · simp [hxy] at hab
      · by_cases hyx : y < x
        · simp [hyx, hxy] at hba
        · simp only [hxy, hyx, if_false] at hab hba
          have hx : x = y := le_antisymm (not_lt.1 hyx) (not_lt.1 hxy)
          rw [hx, ih ys hab hba]

theorem ltChars_trans (a b c : List Char) (hab : ltChars a b = true)
    (hbc : ltChars b c = true) : ltChars a c = true := by
  induction a generalizing b c with
  | nil =>
    cases c with
    | nil =>
      cases b with
      | nil => simp [ltChars] at hab
      | cons y ys => simp [ltChars] at hbc
    | cons z zs => simp [ltChars]
  | cons x xs ih =>
    cases b with
    | nil => simp [ltChars] at hab
    | cons y ys =>
      cases c with
      | nil => simp [ltChars] at hbc
      | cons z zs =>
        simp only [ltChars] at hab hbc ⊢
        by_cases hxy : x < y
        · by_cases hyz : y < z
          · simp [lt_trans hxy hyz]
          · by_cases hzy : z < y
            · simp [hyz, hzy] at hbc
            · have hyzeq : y = z := le_antisymm (not_lt.1 hzy) (not_lt.1 hyz)
              simp [hyzeq ▸ hxy]
        · by_cases hyx : y < x
          · simp [hxy, hyx] at hab
          · have hxyeq : x = y := le_antisymm (not_lt.1 hyx) (not_lt.1 hxy)
            subst hxyeq
            simp only [hxy, lt_irrefl, if_false] at hab
            by_cases hxz : x < z
            · simp [hxz]
            · by_cases hzx : z < x
              · simp [hxz, hzx] at hbc
              · simp only [hxz, hzx, if_false] at hbc ⊢
                exact ih ys zs hab hbc

theorem ltChars_trichotomy (a b : List Char) :
    ltChars a b = true ∨ a = b ∨ ltChars b a = true := by
  by_cases hab : ltChars a b = true
  · exact Or.inl hab
  · by_cases hba : ltChars b a = true
    · exact Or.inr (Or.inr hba)
    · exact Or.inr (Or.inl (ltChars_antisymm a b (by simpa using hab) (by simpa using hba)))

theorem strLe_total (a b : String) : strLe a b = true ∨ strLe b a = true := by
  unfold strLe strLt
  by_cases h : ltChars b.data a.data = true
  · right
    simp [ltChars_asymm _ _ h]
  · left
    simp [Bool.eq_false_iff.2 h]

theorem strLe_trans (a b c : String) (hab : strLe a b = true) (hbc : strLe b c = true) :
    strLe a c = true := by
  unfold strLe strLt at hab hbc ⊢
  simp only [Bool.not_eq_true'] at hab hbc
  simp only [Bool.not_eq_true']
  by_cases hca : ltChars c.data a.data = true
  · rcases ltChars_trichotomy b.data c.data with h | h | h
    · exact absurd (ltChars_trans _ _ _ h hca) (by simp [hab])
    · rw [← h] at hca
      exact absurd hca (by simp [hab])
    · exact absurd h (by simp [hbc])
  · simpa using hca

theorem strLe_antisymm (a b : String) (hab : strLe a b = true) (hba : strLe b a = true) :
    a = b := by
  unfold strLe strLt at hab hba
  simp only [Bool.not_eq_true'] at hab hba
  have : a.data = b.data := ltChars_antisymm a.data b.data hba hab
  cases a
  cases b
  simp only at this
  rw [this]

/-! ## Claims C7, C8, C10 -/

/-- **C7** (confirmed): for every group list and limit, `searchStationGroups`
called with the empty-string query returns the empty list (the deliberate
empty-query policy), not the full group list. -/
theorem claim_C7_empty_query (groups : List StationGroup) (limit : ℕ) :
    searchStationGroups groups "" limit = [] := by
  simp [searchStationGroups]

/-- **C8** counterexample: `longestCommonPrefix` does *not* return a
one-element list's string unchanged — it trims it (`["a "]` yields `"a"`). -/
theorem claim_C8_counterexample : longestCommonPrefixOf ["a "] ≠ "a " := by decide

/-- **C8** (amended): on a one-element list `longestCommonPrefix` returns the
single input *trimmed of surrounding whitespace* (hence unchanged only when
there is none), and it returns the empty string on the empty list. -/
theorem claim_C8_singleton_and_empty :
    (∀ s : String, longestCommonPrefixOf [s] = trimStr s) ∧
    longestCommonPrefixOf ([] : List String) = "" :=
  ⟨fun _ => rfl, rfl⟩

theorem countryFold_all_empty (l : List Station) (acc : List (String × ℕ))
    (h : ∀ s ∈ l, s.stop_country = "") :
    l.foldl (fun freq s =>
      if s.stop_country ≠ "" then bumpCountry freq s.stop_country else freq) acc = acc := by
  induction l generalizing acc with
  | nil => rfl
  | cons s t ih =>
    have hs : s.stop_country = "" := h s (List.mem_cons_self s t)
    simp only [List.foldl_cons, hs]
    simpa using ih acc fun x hx => h x (List.mem_cons_of_mem s hx)

theorem getMostCommonCountry_all_empty (stations : List Station)
    (h : ∀ s ∈ stations, s.stop_country = "") :
    getMostCommonCountry stations = "" := by
  unfold getMostCommonCountry
  rw [countryFold_all_empty stations [] h]

theorem countryFold_filter (l : List Station) (acc : List (String × ℕ)) :
    l.foldl (fun freq s =>
      if s.stop_country ≠ "" then bumpCountry freq s.stop_country else freq) acc =
    (l.filter fun s => s.stop_country ≠ "").foldl (fun freq s =>
      if s.stop_country ≠ "" then bumpCountry freq s.stop_country else freq) acc := by
  induction l generalizing acc with
  | nil => rfl
  | cons s t ih =>
    by_cases hs : s.stop_country = ""
    · simp only [List.foldl_cons, List.filter_cons, hs]
      simpa [hs] using ih acc
    · simp only [List.foldl_cons, List.filter_cons]
      simp only [ne_eq, hs, not_false_eq_true, if_true, ite_true, decide_not]
      simpa [hs] using ih (bumpCountry acc s.stop_country)

theorem mkGroup_stop_country_of_all_empty (sts : List Station)
    (h : ∀ st ∈ (mkGroup sts).stations, st.stop_country = "") :
    (mkGroup sts).stop_country = "" := by
  match sts with
  | [station] =>
    exact h station (List.mem_cons_self _ _)
  | [] =>
    exact getMostCommonCountry_all_empty _ h
  | a :: b :: rest =>
    exact getMostCommonCountry_all_empty _ h

/-- **C10** (confirmed): a synthesized group whose members all lack a country
code gets `stop_country = ""` (no failure), and the dominant-country
computation ignores members whose country code is empty (dropping them does
not change the result). -/
theorem claim_C10_dominant_country :
    (∀ (calcDist : Station → Station → ℚ) (stops : List (String × Stop)) (D : ℚ),
      ∀ g ∈ groupStations calcDist stops D,
        (∀ st ∈ g.stations, st.stop_country = "") → g.stop_country = "") ∧
    (∀ stations : List Station,
      getMostCommonCountry stations =
        getMostCommonCountry (stations.filter fun s => s.stop_country ≠ "")) := by
  constructor
  · intro calcDist stops D g hg hempty
    unfold groupStations at hg
    rcases List.mem_map.1 hg with ⟨kv, _, rfl⟩
    exact mkGroup_stop_country_of_all_empty kv.2 hempty
  · intro stations
    unfold getMostCommonCountry
    rw [countryFold_filter]

/-- Witness for **C10**: a concrete single-station run with an empty country
code produces `stop_country = ""`. -/
theorem claim_C10_witness :
    ((groupStations lineDist c10Stops (intToRat 1)).getD 0 default).stop_country = "" :=
  claim_C10_dominant_country.1 lineDist c10Stops (intToRat 1)
    ((groupStations lineDist c10Stops (intToRat 1)).getD 0 default)
    (by decide) (by decide)

/-! ## Claim C5 -/

theorem ne_empty_iff_data_ne_nil (s : String) : s ≠ "" ↔ s.data ≠ [] := by
  cases s with
  | mk l =>
    constructor
    · intro h hdata
      exact h (by simp only at hdata; rw [hdata])
    · intro h heq
      apply h
      rw [heq]

theorem strIncludes_empty_left (q : String) (hq : q.data ≠ []) :
    strIncludes "" q = false := by
  unfold strIncludes
  simp only [decide_eq_false_iff_not]
  intro h
  exact hq (List.eq_nil_of_infix_nil h)

theorem lowerStr_empty : lowerStr "" = "" := rfl

theorem matchesSearch_iff_eligibleFor (q : String) (hq : q.data ≠ []) (g : StationGroup) :
    matchesSearch q g = true ↔ eligibleFor q g := by
  unfold matchesSearch eligibleFor
  by_cases hc : g.stop_country = ""
  · have hbad : strIncludes (lowerStr "") q = false := by
      rw [lowerStr_empty]
      exact strIncludes_empty_left q hq
    simp only [hc, hbad, List.any_eq_true, Bool.or_eq_true, Bool.and_eq_true,
      decide_eq_true_eq]
    constructor
    · rintro (((h | h) | ⟨h, _⟩) | h)
      · exact Or.inl h
      · exact Or.inr (Or.inl h)
      · exact absurd rfl h
      · exact Or.inr (Or.inr (Or.inr h))
    · rintro (h | h | h | h)
      · exact Or.inl (Or.inl (Or.inl h))
      · exact Or.inl (Or.inl (Or.inr h))
      · exact absurd h (by simp)
      · exact Or.inr h
  · simp only [List.any_eq_true, Bool.or_eq_true, Bool.and_eq_true, decide_eq_true_eq]
    constructor
    · rintro (((h | h) | ⟨_, h⟩) | h)
      · exact Or.inl h
      · exact Or.inr (Or.inl h)
      · exact Or.inr (Or.inr (Or.inl h))
      · exact Or.inr (Or.inr (Or.inr h))
    · rintro (h | h | h | h)
      · exact Or.inl (Or.inl (Or.inl h))
      · exact Or.inl (Or.inl (Or.inr h))
      · exact Or.inl (Or.inr ⟨hc, h⟩)
      · exact Or.inr h

/-! ## Claim C4: the ranking comparator -/

theorem boolRank_le_one (b : Bool) : boolRank b ≤ 1 := by
  cases b <;> simp [boolRank]

theorem boolRank_decide_pos (P : Prop) [Decidable P] (h : P) :
    boolRank (decide P) = 0 := by simp [boolRank, h]

theorem boolRank_decide_neg (P : Prop) [Decidable P] (h : ¬P) :
    boolRank (decide P) = 1 := by simp [boolRank, h]

theorem boolRank_eq_true {x : Bool} (h : x = true) : boolRank x = 0 := by
  rw [h]; rfl

theorem boolRank_eq_false {x : Bool} (h : x = false) : boolRank x = 1 := by
  rw [h]; rfl

theorem localeCompareM_le_zero (a b : String) :
    localeCompareM a b ≤ 0 ↔ strLe a b = true := by
  unfold localeCompareM strLe
  cases hab : strLt a b with
  | true =>
    have hba : strLt b a = false := by
      unfold strLt at hab ⊢
      exact ltChars_asymm _ _ hab
    simp [hab, hba]
  | false =>
    cases hba : strLt b a with
    | true => norm_num [hab, hba]
    | false => simp [hab, hba]

theorem keyLe_total (k k' : ℕ × ℤ × String) : keyLe k k' ∨ keyLe k' k := by
  unfold keyLe
  rcases lt_trichotomy k.1 k'.1 with h | h | h
  · exact Or.inl (Or.inl h)
  · rcases lt_trichotomy k.2.1 k'.2.1 with h2 | h2 | h2
    · exact Or.inl (Or.inr ⟨h, Or.inl h2⟩)
    · rcases strLe_total k.2.2 k'.2.2 with h3 | h3
      · exact Or.inl (Or.inr ⟨h, Or.inr ⟨h2, h3⟩⟩)
      · exact Or.inr (Or.inr ⟨h.symm, Or.inr ⟨h2.symm, h3⟩⟩)
    · exact Or.inr (Or.inr ⟨h.symm, Or.inl h2⟩)
  · exact Or.inr (Or.inl h)

theorem keyLe_trans (a b c : ℕ × ℤ × String) (h1 : keyLe a b) (h2 : keyLe b c) :
    keyLe a c := by
  unfold keyLe at *
  rcases h1 with h1 | ⟨e1, h1⟩
  · rcases h2 with h2 | ⟨e2, _⟩
    · exact Or.inl (lt_trans h1 h2)
    · exact Or.inl (e2 ▸ h1)
  · rcases h2 with h2 | ⟨e2, h2⟩
    · exact Or.inl (e1 ▸ h2)
    · refine Or.inr ⟨e1.trans e2, ?_⟩
      rcases h1 with h1 | ⟨f1, h1⟩
      · rcases h2 with h2 | ⟨f2, _⟩
        · exact Or.inl (lt_trans h1 h2)
        · exact Or.inl (f2 ▸ h1)
      · rcases h2 with h2 | ⟨f2, h2⟩
        · exact Or.inl (f1 ▸ h2)
        · exact Or.inr ⟨f1.trans f2, strLe_trans _ _ _ h1 h2⟩

theorem searchCmp_le_iff (q : String) (a b : StationGroup) :
    searchCmp q a b ≤ 0 ↔ keyLe (searchKey q a) (searchKey q b) := by
  unfold searchCmp searchKey keyLe
  dsimp only
  by_cases h1a : lowerStr a.groupName = q
  all_goals by_cases h1b : lowerStr b.groupName = q
  all_goals
    first
    | (have hga : lowerStr a.groupName = q := h1a
       have hgb : ¬ lowerStr b.groupName = q := h1b
       rw [if_pos ⟨hga, hgb⟩]
       refine ⟨fun _ => Or.inl ?_, fun _ => by norm_num⟩
       have e1 := boolRank_decide_pos (lowerStr a.groupName = q) hga
       have e2 := boolRank_decide_neg (lowerStr b.groupName = q) hgb
       have b1 := boolRank_le_one (decide (lowerStr a.displayName = q))
       have b2 := boolRank_le_one (strStartsWith (lowerStr a.groupName) q)
       have b3 := boolRank_le_one (strStartsWith (lowerStr a.displayName) q)
       have b4 := boolRank_le_one a.isGroup
       omega)
    | (have hga : ¬ lowerStr a.groupName = q := h1a
       have hgb : lowerStr b.groupName = q := h1b
       rw [if_neg (fun hh => hga hh.1), if_pos ⟨hga, hgb⟩]
       refine ⟨fun hle => absurd hle (by norm_num), fun hk => absurd hk ?_⟩
       intro hk
       have e1 := boolRank_decide_neg (lowerStr a.groupName = q) hga
       have e2 := boolRank_decide_pos (lowerStr b.groupName = q) hgb
       have b1 := boolRank_le_one (decide (lowerStr b.displayName = q))
       have b2 := boolRank_le_one (strStartsWith (lowerStr b.groupName) q)
       have b3 := boolRank_le_one (strStartsWith (lowerStr b.displayName) q)
       have b4 := boolRank_le_one b.isGroup
       rcases hk with hlt | ⟨heq, _⟩ <;> omega)
    | (have hga : lowerStr a.groupName = q := h1a
       have hgb : lowerStr b.groupName = q := h1b
       have e1a := boolRank_decide_pos (lowerStr a.groupName = q) hga
       have e1b := boolRank_decide_pos (lowerStr b.groupName = q) hgb
       rw [if_neg (fun hh => hh.2 hgb), if_neg (fun hh => hh.1 hga)])
    | (have hga : ¬ lowerStr a.groupName = q := h1a
       have hgb : ¬ lowerStr b.groupName = q := h1b
       have e1a := boolRank_decide_neg (lowerStr a.groupName = q) hga
       have e1b := boolRank_decide_neg (lowerStr b.groupName = q) hgb
       rw [if_neg (fun hh => hga hh.1), if_neg (fun hh => hgb hh.2)])
  all_goals by_cases h2a : lowerStr a.displayName = q
  all_goals by_cases h2b : lowerStr b.displayName = q
  all_goals
    first
    | ( -- a matches tier 2, b does not: comparator yields -1
       have hda : lowerStr a.displayName = q := h2a
       have hdb : ¬ lowerStr b.displayName = q := h2b
       rw [if_pos ⟨hda, hdb⟩]
       refine ⟨fun _ => Or.inl ?_, fun _ => by norm_num⟩
       have e2a := boolRank_decide_pos (lowerStr a.displayName = q) hda
       have e2b := boolRank_decide_neg (lowerStr b.displayName = q) hdb
       have b2 := boolRank_le_one (strStartsWith (lowerStr a.groupName) q)
       have b3 := boolRank_le_one (strStartsWith (lowerStr a.displayName) q)
       have b4 := boolRank_le_one a.isGroup
       omega)
    | ( -- b matches tier 2, a does not: comparator yields 1
       have hda : ¬ lowerStr a.displayName = q := h2a
       have hdb : lowerStr b.displayName = q := h2b
       rw [if_neg (fun hh => hda hh.1), if_pos ⟨hda, hdb⟩]
       refine ⟨fun hle => absurd hle (by norm_num), fun hk => absurd hk ?_⟩
       intro hk
       have e2a := boolRank_decide_neg (lowerStr a.displayName = q) hda
       have e2b := boolRank_decide_pos (lowerStr b.displayName = q) hdb
       have b2 := boolRank_le_one (strStartsWith (lowerStr b.groupName) q)
       have b3 := boolRank_le_one (strStartsWith (lowerStr b.displayName) q)
       have b4 := boolRank_le_one b.isGroup
       rcases hk with hlt | ⟨heq, _⟩ <;> omega)
    | (have hda : lowerStr a.displayName = q := h2a
       have hdb : lowerStr b.displayName = q := h2b
       have e2a := boolRank_decide_pos (lowerStr a.displayName = q) hda
       have e2b := boolRank_decide_pos (lowerStr b.displayName = q) hdb
       rw [if_neg (fun hh => hh.2 hdb), if_neg (fun hh => hh.1 hda)])
    | (have hda : ¬ lowerStr a.displayName = q := h2a
       have hdb : ¬ lowerStr b.displayName = q := h2b
       have e2a := boolRank_decide_neg (lowerStr a.displayName = q) hda
       have e2b := boolRank_decide_neg (lowerStr b.displayName = q) hdb
       rw [if_neg (fun hh => hda hh.1), if_neg (fun hh => hdb hh.2)])
  all_goals cases h3a : strStartsWith (lowerStr a.groupName) q
  all_goals cases h3b : strStartsWith (lowerStr b.groupName) q
  all_goals
    first
    | (have g3a : strStartsWith (lowerStr a.groupName) q = true := h3a
       have g3b : strStartsWith (lowerStr b.groupName) q = false := h3b
       rw [if_pos (show true = true ∧ ¬ false = true by simp)]
       refine ⟨fun _ => Or.inl ?_, fun _ => by norm_num⟩
       have et : boolRank true = 0 := rfl
       have ef : boolRank false = 1 := rfl
       have b3 := boolRank_le_one (strStartsWith (lowerStr a.displayName) q)
       have b3b := boolRank_le_one (strStartsWith (lowerStr b.displayName) q)
       have b4 := boolRank_le_one a.isGroup
       have b4b := boolRank_le_one b.isGroup
       omega)
    | (have g3a : strStartsWith (lowerStr a.groupName) q = false := h3a
       have g3b : strStartsWith (lowerStr b.groupName) q = true := h3b
       rw [if_neg (show ¬ (false = true ∧ ¬ true = true) by simp),
          if_pos (show ¬ false = true ∧ true = true by simp)]
       refine ⟨fun hle => absurd hle (by norm_num), fun hk => absurd hk ?_⟩
       intro hk
       have et : boolRank true = 0 := rfl
       have ef : boolRank false = 1 := rfl
       have b3 := boolRank_le_one (strStartsWith (lowerStr a.displayName) q)
       have b3b := boolRank_le_one (strStartsWith (lowerStr b.displayName) q)
       have b4 := boolRank_le_one a.isGroup
       have b4b := boolRank_le_one b.isGroup
       rcases hk with hlt | ⟨heq, _⟩ <;> omega)
    | (have g3a : strStartsWith (lowerStr a.groupName) q = true := h3a
       have g3b : strStartsWith (lowerStr b.groupName) q = true := h3b
       rw [if_neg (show ¬ (true = true ∧ ¬ true = true) by simp),
          if_neg (show ¬ (¬ true = true ∧ true = true) by simp)])
    | (have g3a : strStartsWith (lowerStr a.groupName) q = false := h3a
       have g3b : strStartsWith (lowerStr b.groupName) q = false := h3b
       rw [if_neg (show ¬ (false = true ∧ ¬ false = true) by simp),
          if_neg (show ¬ (¬ false = true ∧ false = true) by simp)])
  all_goals cases h4a : strStartsWith (lowerStr a.displayName) q
  all_goals cases h4b : strStartsWith (lowerStr b.displayName) q
  all_goals
    first
    | (have g4a : strStartsWith (lowerStr a.displayName) q = true := h4a
       have g4b : strStartsWith (lowerStr b.displayName) q = false := h4b
       rw [if_pos (show true = true ∧ ¬ false = true by simp)]
       refine ⟨fun _ => Or.inl ?_, fun _ => by norm_num⟩
       have et : boolRank true = 0 := rfl
       have ef : boolRank false = 1 := rfl
       have b4 := boolRank_le_one a.isGroup
       have b4b := boolRank_le_one b.isGroup
       omega)
    | (have g4a : strStartsWith (lowerStr a.displayName) q = false := h4a
       have g4b : strStartsWith (lowerStr b.displayName) q = true := h4b
       rw [if_neg (show ¬ (false = true ∧ ¬ true = true) by simp),
          if_pos (show ¬ false = true ∧ true = true by simp)]
       refine ⟨fun hle => absurd hle (by norm_num), fun hk => absurd hk ?_⟩
       intro hk
       have et : boolRank true = 0 := rfl
       have ef : boolRank false = 1 := rfl
       have b4 := boolRank_le_one a.isGroup
       have b4b := boolRank_le_one b.isGroup
       rcases hk with hlt | ⟨heq, _⟩ <;> omega)
    | (have g4a : strStartsWith (lowerStr a.displayName) q = true := h4a
       have g4b : strStartsWith (lowerStr b.displayName) q = true := h4b
       rw [if_neg (show ¬ (true = true ∧ ¬ true = true) by simp),
          if_neg (show ¬ (¬ true = true ∧ true = true) by simp)])
    | (have g4a : strStartsWith (lowerStr a.displayName) q = false := h4a
       have g4b : strStartsWith (lowerStr b.displayName) q = false := h4b
       rw [if_neg (show ¬ (false = true ∧ ¬ false = true) by simp),
          if_neg (show ¬ (¬ false = true ∧ false = true) by simp)])
  all_goals cases h5a : a.isGroup
  all_goals cases h5b : b.isGroup
  all_goals
    first
    | ( -- both multi-station groups: compare sizes, then display names
       have g5a : a.isGroup = true := h5a
       have g5b : b.isGroup = true := h5b
       have et : boolRank true = 0 := rfl
       rw [if_pos (show (true = true) from rfl), if_pos (show (true = true) from rfl)]
       by_cases hsz : b.stations.length = a.stations.length
       · rw [if_neg (fun hh => hh.2.2 hsz),
            if_neg (show ¬ (true = true ∧ ¬ true = true) by simp),
            if_neg (show ¬ (¬ true = true ∧ true = true) by simp)]
         constructor
         · intro h
           exact Or.inr ⟨by omega, Or.inr ⟨by omega, (localeCompareM_le_zero _ _).1 h⟩⟩
         · rintro (hlt | ⟨_, hlt2 | ⟨_, hstr⟩⟩)
           · exact absurd hlt (by omega)
           · exact absurd hlt2 (by omega)
           · exact (localeCompareM_le_zero _ _).2 hstr
       · rw [if_pos ⟨rfl, rfl, hsz⟩]
         constructor
         · intro hle
           exact Or.inr ⟨by omega, Or.inl (by omega)⟩
         · rintro (hlt | ⟨_, hlt2 | ⟨heq2, _⟩⟩)
           · exact absurd hlt (by omega)
           · omega
           · exact absurd heq2 (by omega))
    | ( -- a is a group, b is a single station: a ranks first
       have g5a : a.isGroup = true := h5a
       have g5b : b.isGroup = false := h5b
       have et : boolRank true = 0 := rfl
       have ef : boolRank false = 1 := rfl
       rw [if_neg (show ¬ (true = true ∧ false = true ∧ ¬ b.stations.length = a.stations.length) by simp),
          if_pos (show true = true ∧ ¬ false = true by simp),
          if_pos (show (true = true) from rfl),
          if_neg (show ¬ (false = true) by simp)]
       exact ⟨fun _ => Or.inl (by omega), fun _ => by norm_num⟩)
    | ( -- b is a group, a is a single station: comparator yields 1
       have g5a : a.isGroup = false := h5a
       have g5b : b.isGroup = true := h5b
       have et : boolRank true = 0 := rfl
       have ef : boolRank false = 1 := rfl
       rw [if_neg (show ¬ (false = true ∧ true = true ∧ ¬ b.stations.length = a.stations.length) by simp),
          if_neg (show ¬ (false = true ∧ ¬ true = true) by simp),
          if_pos (show ¬ false = true ∧ true = true by simp),
          if_neg (show ¬ (false = true) by simp),
          if_pos (show (true = true) from rfl)]
       refine ⟨fun hle => absurd hle (by norm_num), fun hk => absurd hk ?_⟩
       intro hk
       rcases hk with hlt | ⟨heq, _⟩ <;> omega)
    | ( -- neither is a group: compare display names
       have g5a : a.isGroup = false := h5a
       have g5b : b.isGroup = false := h5b
       have ef : boolRank false = 1 := rfl
       rw [if_neg (show ¬ (false = true ∧ false = true ∧ ¬ b.stations.length = a.stations.length) by simp),
          if_neg (show ¬ (false = true ∧ ¬ false = true) by simp),
          if_neg (show ¬ (¬ false = true ∧ false = true) by simp),
          if_neg (show ¬ (false = true) by simp), if_neg (show ¬ (false = true) by simp)]
       constructor
       · intro h
         exact Or.inr ⟨by omega, Or.inr ⟨by omega, (localeCompareM_le_zero _ _).1 h⟩⟩
       · rintro (hlt | ⟨_, hlt2 | ⟨_, hstr⟩⟩)
         · exact absurd hlt (by omega)
         · exact absurd hlt2 (by omega)
         · exact (localeCompareM_le_zero _ _).2 hstr)

theorem keyLe_rankedBefore (q : String) (a b : StationGroup)
    (hk : keyLe (searchKey q a) (searchKey q b)) : rankedBefore q a b := by
  unfold keyLe searchKey at hk
  dsimp only at hk
  unfold rankedBefore
  dsimp only
  have b2a := boolRank_le_one (decide (lowerStr a.displayName = q))
  have b2b := boolRank_le_one (decide (lowerStr b.displayName = q))
  have b3a := boolRank_le_one (strStartsWith (lowerStr a.groupName) q)
  have b3b := boolRank_le_one (strStartsWith (lowerStr b.groupName) q)
  have b4a := boolRank_le_one (strStartsWith (lowerStr a.displayName) q)
  have b4b := boolRank_le_one (strStartsWith (lowerStr b.displayName) q)
  have b5a := boolRank_le_one a.isGroup
  have b5b := boolRank_le_one b.isGroup
  refine ⟨?_, ?_, ?_, ?_, ?_, ?_⟩
  · intro hbEG
    by_contra haEG
    have e1a := boolRank_decide_neg (lowerStr a.groupName = q) haEG
    have e1b := boolRank_decide_pos (lowerStr b.groupName = q) hbEG
    rcases hk with hlt | ⟨heq, _⟩ <;> omega
  · intro h1 hbED
    by_contra haED
    have e1 : boolRank (decide (lowerStr a.groupName = q)) =
        boolRank (decide (lowerStr b.groupName = q)) := by
      by_cases hx : lowerStr a.groupName = q
      · rw [boolRank_decide_pos (lowerStr a.groupName = q) hx,
           boolRank_decide_pos (lowerStr b.groupName = q) (h1.1 hx)]
      · rw [boolRank_decide_neg (lowerStr a.groupName = q) hx,
           boolRank_decide_neg (lowerStr b.groupName = q) (fun hy => hx (h1.2 hy))]
    have e2a := boolRank_decide_neg (lowerStr a.displayName = q) haED
    have e2b := boolRank_decide_pos (lowerStr b.displayName = q) hbED
    rcases hk with hlt | ⟨heq, _⟩ <;> omega
  · intro h1 h2 hbSG
    by_contra haSG
    have haSG' : strStartsWith (lowerStr a.groupName) q = false := by
      simpa using haSG
    have e1 : boolRank (decide (lowerStr a.groupName = q)) =
        boolRank (decide (lowerStr b.groupName = q)) := by
      by_cases hx : lowerStr a.groupName = q
      · rw [boolRank_decide_pos (lowerStr a.groupName = q) hx,
           boolRank_decide_pos (lowerStr b.groupName = q) (h1.1 hx)]
      · rw [boolRank_decide_neg (lowerStr a.groupName = q) hx,
           boolRank_decide_neg (lowerStr b.groupName = q) (fun hy => hx (h1.2 hy))]
    have e2 : boolRank (decide (lowerStr a.displayName = q)) =
        boolRank (decide (lowerStr b.displayName = q)) := by
      by_cases hx : lowerStr a.displayName = q
      · rw [boolRank_decide_pos (lowerStr a.displayName = q) hx,
           boolRank_decide_pos (lowerStr b.displayName = q) (h2.1 hx)]
      · rw [boolRank_decide_neg (lowerStr a.displayName = q) hx,
           boolRank_decide_neg (lowerStr b.displayName = q) (fun hy => hx (h2.2 hy))]
    have e3a := boolRank_eq_false haSG'
    have e3b := boolRank_eq_true hbSG
    rcases hk with hlt | ⟨heq, _⟩ <;> omega
  · intro h1 h2 h3 hbSD
    by_contra haSD
    have haSD' : strStartsWith (lowerStr a.displayName) q = false := by
      simpa using haSD
    have e1 : boolRank (decide (lowerStr a.groupName = q)) =
        boolRank (decide (lowerStr b.groupName = q)) := by
      by_cases hx : lowerStr a.groupName = q
      · rw [boolRank_decide_pos (lowerStr a.groupName = q) hx,
           boolRank_decide_pos (lowerStr b.groupName = q) (h1.1 hx)]
      · rw [boolRank_decide_neg (lowerStr a.groupName = q) hx,
           boolRank_decide_neg (lowerStr b.groupName = q) (fun hy => hx (h1.2 hy))]
    have e2 : boolRank (decide (lowerStr a.displayName = q)) =
        boolRank (decide (lowerStr b.displayName = q)) := by
      by_cases hx : lowerStr a.displayName = q
      · rw [boolRank_decide_pos (lowerStr a.displayName = q) hx,
           boolRank_decide_pos (lowerStr b.displayName = q) (h2.1 hx)]
      · rw [boolRank_decide_neg (lowerStr a.displayName = q) hx,
           boolRank_decide_neg (lowerStr b.displayName = q) (fun hy => hx (h2.2 hy))]
    have e3 : boolRank (strStartsWith (lowerStr a.groupName) q) =
        boolRank (strStartsWith (lowerStr b.groupName) q) := by
      by_cases hx : strStartsWith (lowerStr a.groupName) q = true
      · rw [boolRank_eq_true hx, boolRank_eq_true (h3.1 hx)]
      · rw [boolRank_eq_false (by simpa using hx),
           boolRank_eq_false (by simpa using fun hy => hx (h3.2 hy))]
    have e4a := boolRank_eq_false haSD'
    have e4b := boolRank_eq_true hbSD
    rcases hk with hlt | ⟨heq, _⟩ <;> omega
  all_goals intro h1 h2 h3 h4
  all_goals
    have e1 : boolRank (decide (lowerStr a.groupName = q)) =
        boolRank (decide (lowerStr b.groupName = q)) := by
      by_cases hx : lowerStr a.groupName = q
      · rw [boolRank_decide_pos (lowerStr a.groupName = q) hx,
           boolRank_decide_pos (lowerStr b.groupName = q) (h1.1 hx)]
      · rw [boolRank_decide_neg (lowerStr a.groupName = q) hx,
           boolRank_decide_neg (lowerStr b.groupName = q) (fun hy => hx (h1.2 hy))]
  all_goals
    have e2 : boolRank (decide (lowerStr a.displayName = q)) =
        boolRank (decide (lowerStr b.displayName = q)) := by
      by_cases hx : lowerStr a.displayName = q
      · rw [boolRank_decide_pos (lowerStr a.displayName = q) hx,
           boolRank_decide_pos (lowerStr b.displayName = q) (h2.1 hx)]
      · rw [boolRank_decide_neg (lowerStr a.displayName = q) hx,
           boolRank_decide_neg (lowerStr b.displayName = q) (fun hy => hx (h2.2 hy))]
  all_goals
    have e3 : boolRank (strStartsWith (lowerStr a.groupName) q) =
        boolRank (strStartsWith (lowerStr b.groupName) q) := by
      by_cases hx : strStartsWith (lowerStr a.groupName) q = true
      · rw [boolRank_eq_true hx, boolRank_eq_true (h3.1 hx)]
      · rw [boolRank_eq_false (by simpa using hx),
           boolRank_eq_false (by simpa using fun hy => hx (h3.2 hy))]
  all_goals
    have e4 : boolRank (strStartsWith (lowerStr a.displayName) q) =
        boolRank (strStartsWith (lowerStr b.displayName) q) := by
      by_cases hx : strStartsWith (lowerStr a.displayName) q = true
      · rw [boolRank_eq_true hx, boolRank_eq_true (h4.1 hx)]
      · rw [boolRank_eq_false (by simpa using hx),
           boolRank_eq_false (by simpa using fun hy => hx (h4.2 hy))]
  · constructor
    · intro hbG
      by_contra haG
      have e5a := boolRank_eq_false (by simpa using haG)
      have e5b := boolRank_eq_true hbG
      rcases hk with hlt | ⟨heq, _⟩ <;> omega
    · intro haG hbG
      by_contra hlen
      have e5a := boolRank_eq_true haG
      have e5b := boolRank_eq_true hbG
      simp only [haG, hbG, if_true] at hk
      rcases hk with hlt | ⟨heq, hlt2 | ⟨heq2, _⟩⟩ <;> omega
  · intro hgEq hszEq
    cases hg : a.isGroup with
    | true =>
      have hbG : b.isGroup = true := hgEq ▸ hg
      have hsz := hszEq hg
      have e5a := boolRank_eq_true hg
      have e5b := boolRank_eq_true hbG
      simp only [hg, hbG, if_true] at hk
      rcases hk with hlt | ⟨heq, hlt2 | ⟨heq2, hstr⟩⟩
      · exact absurd hlt (by omega)
      · exact absurd hlt2 (by omega)
      · exact hstr
    | false =>
      have hbG : b.isGroup = false := hgEq ▸ hg
      have e5a := boolRank_eq_false hg
      have e5b := boolRank_eq_false hbG
      simp only [hg, hbG, Bool.false_eq_true, if_false] at hk
      rcases hk with hlt | ⟨heq, hlt2 | ⟨heq2, hstr⟩⟩
      · exact absurd hlt (by omega)
      · exact absurd hlt2 (by omega)
      · exact hstr

/-- **C5** (confirmed): for a non-empty query and non-negative limit,
`searchStationGroups` returns at most `limit` groups; every returned group
satisfies the eligibility condition (the lower-cased query is a substring of
the group name, display name, country code, or some member's name); when
the number of eligible groups fits in the limit, every eligible input group
is returned; and the returned list is the top-ranked eligible groups up to
`limit`: together with the left-out `rest` it is a permutation of the
eligible groups, it is as long as the limit allows (`min limit #eligible`),
and every returned group ranks before every left-out eligible group. -/
theorem claim_C5_filter_and_limit (groups : List StationGroup) (searchTerm : String)
    (limit : ℕ) (hq : searchTerm ≠ "") :
    (searchStationGroups groups searchTerm limit).length ≤ limit ∧
    (∀ g ∈ searchStationGroups groups searchTerm limit, eligibleFor (lowerStr searchTerm) g) ∧
    (groups.countP (matchesSearch (lowerStr searchTerm)) ≤ limit →
      ∀ g ∈ groups, eligibleFor (lowerStr searchTerm) g →
        g ∈ searchStationGroups groups searchTerm limit) ∧
    (∃ rest : List StationGroup,
      (searchStationGroups groups searchTerm limit ++ rest).Perm
        (groups.filter (matchesSearch (lowerStr searchTerm))) ∧
      (searchStationGroups groups searchTerm limit).length =
        min limit (groups.countP (matchesSearch (lowerStr searchTerm))) ∧
      ∀ g ∈ searchStationGroups groups searchTerm limit, ∀ h ∈ rest,
        rankedBefore (lowerStr searchTerm) g h) := by
  have hqd : (lowerStr searchTerm).data ≠ [] := by
    have := (ne_empty_iff_data_ne_nil searchTerm).1 hq
    cases searchTerm with
    | mk l => simpa [lowerStr] using this
  simp only [searchStationGroups, if_neg hq]
  refine ⟨?_, ?_, ?_, ?_⟩
  · rw [List.length_take]
    exact min_le_left _ _
  · intro g hg
    have hsorted : g ∈ stableSort
        (fun a b => decide (searchCmp (lowerStr searchTerm) a b ≤ 0))
        (groups.filter (matchesSearch (lowerStr searchTerm))) :=
      (List.take_sublist _ _).subset hg
    have hfil := (mem_stableSort _ _ g).1 hsorted
    exact (matchesSearch_iff_eligibleFor _ hqd g).1 (List.mem_filter.1 hfil).2
  · intro hcount g hg helig
    have hmatch : matchesSearch (lowerStr searchTerm) g = true :=
      (matchesSearch_iff_eligibleFor _ hqd g).2 helig
    have hfil : g ∈ groups.filter (matchesSearch (lowerStr searchTerm)) :=
      List.mem_filter.2 ⟨hg, hmatch⟩
    have hsorted := (mem_stableSort
      (fun a b => decide (searchCmp (lowerStr searchTerm) a b ≤ 0)) _ g).2 hfil
    have hlen : (stableSort
        (fun a b => decide (searchCmp (lowerStr searchTerm) a b ≤ 0))
        (groups.filter (matchesSearch (lowerStr searchTerm)))).length ≤ limit := by
      rw [length_stableSort, ← List.countP_eq_length_filter]
      exact hcount
    rw [List.take_of_length_le hlen]
    exact hsorted
  · refine ⟨(stableSort (fun a b => decide (searchCmp (lowerStr searchTerm) a b ≤ 0))
      (groups.filter (matchesSearch (lowerStr searchTerm)))).drop limit, ?_, ?_, ?_⟩
    · rw [List.take_append_drop]
      exact stableSort_perm _ _
    · rw [List.length_take, length_stableSort, List.countP_eq_length_filter]
    · intro g hg h hh
      have htot : ∀ x y : StationGroup,
          decide (searchCmp (lowerStr searchTerm) x y ≤ 0) = true ∨
          decide (searchCmp (lowerStr searchTerm) y x ≤ 0) = true := by
        intro x y
        rcases keyLe_total (searchKey (lowerStr searchTerm) x)
          (searchKey (lowerStr searchTerm) y) with hk | hk
        · exact Or.inl (decide_eq_true ((searchCmp_le_iff _ _ _).2 hk))
        · exact Or.inr (decide_eq_true ((searchCmp_le_iff _ _ _).2 hk))
      have htrans : ∀ x y z : StationGroup,
          decide (searchCmp (lowerStr searchTerm) x y ≤ 0) = true →
          decide (searchCmp (lowerStr searchTerm) y z ≤ 0) = true →
          decide (searchCmp (lowerStr searchTerm) x z ≤ 0) = true := by
        intro x y z hxy hyz
        have kxy := (searchCmp_le_iff _ _ _).1 (of_decide_eq_true hxy)
        have kyz := (searchCmp_le_iff _ _ _).1 (of_decide_eq_true hyz)
        exact decide_eq_true ((searchCmp_le_iff _ _ _).2 (keyLe_trans _ _ _ kxy kyz))
      have hp := stableSort_pairwise
        (fun x y => decide (searchCmp (lowerStr searchTerm) x y ≤ 0)) htot htrans
        (groups.filter (matchesSearch (lowerStr searchTerm)))
      rw [← List.take_append_drop limit
        (stableSort (fun a b => decide (searchCmp (lowerStr searchTerm) a b ≤ 0))
          (groups.filter (matchesSearch (lowerStr searchTerm))))] at hp
      have hcross := (List.pairwise_append.1 hp).2.2 g hg h hh
      exact keyLe_rankedBefore _ _ _
        ((searchCmp_le_iff _ _ _).1 (of_decide_eq_true hcross))

/-- **C4** (confirmed): `searchStationGroups` ranks its results by the stable
multi-tier comparator the claim describes: exact (lower-cased) match on group
name first, then on display name; then prefix match on group name, then on
display name; then multi-station groups before single stations with larger
member counts first; remaining ties in case-insensitive lexicographic order
of display name (`localeCompare` modelled as code-point order). -/
theorem claim_C4_ranking (groups : List StationGroup) (searchTerm : String)
    (limit : ℕ) :
    (searchStationGroups groups searchTerm limit).Pairwise
      (rankedBefore (lowerStr searchTerm)) := by
  by_cases hq : searchTerm = ""
  · simp [searchStationGroups, hq]
  · simp only [searchStationGroups, if_neg hq]
    refine List.Pairwise.sublist (List.take_sublist _ _) ?_
    have htot : ∀ x y : StationGroup,
        decide (searchCmp (lowerStr searchTerm) x y ≤ 0) = true ∨
        decide (searchCmp (lowerStr searchTerm) y x ≤ 0) = true := by
      intro x y
      rcases keyLe_total (searchKey (lowerStr searchTerm) x)
        (searchKey (lowerStr searchTerm) y) with h | h
      · exact Or.inl (decide_eq_true ((searchCmp_le_iff _ _ _).2 h))
      · exact Or.inr (decide_eq_true ((searchCmp_le_iff _ _ _).2 h))
    have htrans : ∀ x y z : StationGroup,
        decide (searchCmp (lowerStr searchTerm) x y ≤ 0) = true →
        decide (searchCmp (lowerStr searchTerm) y z ≤ 0) = true →
        decide (searchCmp (lowerStr searchTerm) x z ≤ 0) = true := by
      intro x y z hxy hyz
      have kxy := (searchCmp_le_iff _ _ _).1 (of_decide_eq_true hxy)
      have kyz := (searchCmp_le_iff _ _ _).1 (of_decide_eq_true hyz)
      exact decide_eq_true ((searchCmp_le_iff _ _ _).2 (keyLe_trans _ _ _ kxy kyz))
    have hp := stableSort_pairwise
      (fun x y => decide (searchCmp (lowerStr searchTerm) x y ≤ 0)) htot htrans
      (groups.filter (matchesSearch (lowerStr searchTerm)))
    exact hp.imp fun h =>
      keyLe_rankedBefore _ _ _ ((searchCmp_le_iff _ _ _).1 (of_decide_eq_true h))

/-! ## Claim C6: the longest-common-prefix heuristic -/

theorem commonPrefixChars_prefix_left (a b : List Char) :
    commonPrefixChars a b <+: a := by
  induction a generalizing b with
  | nil => cases b <;> simp [commonPrefixChars]
  | cons x xs ih =>
    cases b with
    | nil => simp [commonPrefixChars]
    | cons y ys =>
      unfold commonPrefixChars
      by_cases hxy : x = y
      · rw [if_pos hxy, List.cons_prefix_cons]
        exact ⟨rfl, ih ys⟩
      · rw [if_neg hxy]
        exact List.nil_prefix

theorem commonPrefixChars_prefix_right (a b : List Char) :
    commonPrefixChars a b <+: b := by
  induction a generalizing b with
  | nil => cases b <;> simp [commonPrefixChars]
  | cons x xs ih =>
    cases b with
    | nil => simp [commonPrefixChars]
    | cons y ys =>
      unfold commonPrefixChars
      by_cases hxy : x = y
      · rw [if_pos hxy, hxy, List.cons_prefix_cons]
        exact ⟨rfl, ih ys⟩
      · rw [if_neg hxy]
        exact List.nil_prefix

theorem prefix_commonPrefixChars (p a b : List Char) (ha : p <+: a) (hb : p <+: b) :
    p <+: commonPrefixChars a b := by
  induction p generalizing a b with
  | nil => exact List.nil_prefix
  | cons c p' ih =>
    cases a with
    | nil => exact absurd ha (by simp)
    | cons x xs =>
      cases b with
      | nil => exact absurd hb (by simp)
      | cons y ys =>
        rw [List.cons_prefix_cons] at ha hb
        unfold commonPrefixChars
        rw [if_pos (ha.1 ▸ hb.1 ▸ rfl), List.cons_prefix_cons]
        exact ⟨ha.1, ih xs ys ha.2 hb.2⟩

theorem commonPrefixChars_prefix_of_between (a s b : List Char)
    (h1 : ltChars s a = false) (h2 : ltChars b s = false) :
    commonPrefixChars a b <+: s := by
  induction a generalizing s b with
  | nil => cases b <;> simp [commonPrefixChars]
  | cons x xs ih =>
    cases b with
    | nil => simp [commonPrefixChars]
    | cons y ys =>
      cases s with
      | nil => simp [ltChars] at h1
      | cons z zs =>
        unfold commonPrefixChars
        by_cases hxy : x = y
        · rw [if_pos hxy]
          subst hxy
          simp only [ltChars] at h1 h2
          have hzx : ¬ z < x := by
            intro hlt
            rw [if_pos hlt] at h1
            exact absurd h1 (by simp)
          have hxz : ¬ x < z := by
            intro hlt
            rw [if_neg (fun hh => lt_asymm hlt hh), if_pos hlt] at h2
            exact absurd h2 (by simp)
          have hzx' : z = x := le_antisymm (not_lt.1 hxz) (not_lt.1 hzx)
          subst hzx'
          rw [if_neg (lt_irrefl z), if_neg (lt_irrefl z)] at h1 h2
          rw [List.cons_prefix_cons]
          exact ⟨rfl, ih zs ys h1 h2⟩
        · rw [if_neg hxy]
          exact List.nil_prefix

theorem prefix_foldl_commonPrefixChars (rest : List String) (acc p : List Char) :
    p <+: rest.foldl (fun acc t => commonPrefixChars acc t.data) acc ↔
    (p <+: acc ∧ ∀ t ∈ rest, p <+: t.data) := by
  induction rest generalizing acc with
  | nil => simp
  | cons s rest ih =>
    simp only [List.foldl_cons, ih, List.mem_cons]
    constructor
    · rintro ⟨hacc, hall⟩
      have h1 := hacc.trans (commonPrefixChars_prefix_left acc s.data)
      have h2 := hacc.trans (commonPrefixChars_prefix_right acc s.data)
      exact ⟨h1, fun t ht => ht.elim (fun he => he ▸ h2) (hall t)⟩
    · rintro ⟨hacc, hall⟩
      refine ⟨prefix_commonPrefixChars _ _ _ hacc (hall s (Or.inl rfl)), ?_⟩
      exact fun t ht => hall t (Or.inr ht)

theorem prefix_allCommonChars (l : List String) (hne : l ≠ []) (p : List Char) :
    p <+: allCommonChars l ↔ ∀ s ∈ l, p <+: s.data := by
  cases l with
  | nil => exact absurd rfl hne
  | cons s rest =>
    unfold allCommonChars
    rw [prefix_foldl_commonPrefixChars]
    simp only [List.mem_cons]
    constructor
    · rintro ⟨hs, hall⟩
      exact fun t ht => ht.elim (fun he => he ▸ hs) (hall t)
    · intro hall
      exact ⟨hall s (Or.inl rfl), fun t ht => hall t (Or.inr ht)⟩

theorem allCommonChars_prefix (l : List String) (hne : l ≠ []) :
    ∀ s ∈ l, allCommonChars l <+: s.data :=
  (prefix_allCommonChars l hne _).1 (List.prefix_refl _)

theorem getD_last_mem (l : List α) (d : α) (h : l ≠ []) :
    l.getD (l.length - 1) d ∈ l := by
  induction l with
  | nil => exact absurd rfl h
  | cons x xs ih =>
    cases hxs : xs with
    | nil => simp
    | cons y ys =>
      subst hxs
      have hlen : (x :: y :: ys).length - 1 = (y :: ys).length - 1 + 1 := by
        simp only [List.length_cons]
        omega
      rw [hlen, List.getD_cons_succ]
      exact List.mem_cons_of_mem x (ih (by simp))

theorem pairwise_strLe_first (l : List String) (hp : l.Pairwise (fun x y => strLe x y = true))
    (s : String) (hs : s ∈ l) :
    ltChars s.data (l.getD 0 "").data = false := by
  cases l with
  | nil => exact absurd hs (by simp)
  | cons x xs =>
    rw [List.getD_cons_zero]
    rcases List.mem_cons.1 hs with he | ht
    · rw [he]
      exact ltChars_irrefl _
    · have := (List.pairwise_cons.1 hp).1 s ht
      unfold strLe strLt at this
      simpa using this

theorem pairwise_strLe_last (l : List String) (hp : l.Pairwise (fun x y => strLe x y = true))
    (s : String) (hs : s ∈ l) :
    ltChars (l.getD (l.length - 1) "").data s.data = false := by
  induction l with
  | nil => exact absurd hs (by simp)
  | cons x xs ih =>
    cases hxs : xs with
    | nil =>
      subst hxs
      rcases List.mem_cons.1 hs with he | ht
      · rw [he]
        exact ltChars_irrefl _
      · exact absurd ht (by simp)
    | cons y ys =>
      subst hxs
      have hlen : (x :: y :: ys).length - 1 = (y :: ys).length - 1 + 1 := by
        simp only [List.length_cons]
        omega
      rw [hlen, List.getD_cons_succ]
      rcases List.mem_cons.1 hs with he | ht
      · subst he
        have hlast_mem : (y :: ys).getD ((y :: ys).length - 1) "" ∈ y :: ys :=
          getD_last_mem _ _ (by simp)
        have := (List.pairwise_cons.1 hp).1 _ hlast_mem
        unfold strLe strLt at this
        simpa using this
      · exact ih (List.pairwise_cons.1 hp).2 ht

theorem stableSort_strLe_pairwise (l : List String) :
    (stableSort strLe l).Pairwise (fun x y => strLe x y = true) :=
  stableSort_pairwise strLe strLe_total strLe_trans l

theorem lcp_spec (l : List String) (h2 : 2 ≤ l.length) :
    longestCommonPrefixOf l = trimStr ⟨allCommonChars l⟩ ∧
    (∀ s ∈ l, allCommonChars l <+: s.data) ∧
    (∀ p : List Char, (∀ s ∈ l, p <+: s.data) → p <+: allCommonChars l) := by
  have hne : l ≠ [] := by
    intro h
    rw [h] at h2
    simp at h2
  refine ⟨?_, allCommonChars_prefix l hne, fun p hp => (prefix_allCommonChars l hne p).2 hp⟩
  match l, h2 with
  | s1 :: s2 :: rest, _ =>
    have hne' : (s1 :: s2 :: rest) ≠ [] := by simp
    show trimStr ⟨commonPrefixChars _ _⟩ = trimStr ⟨allCommonChars (s1 :: s2 :: rest)⟩
    have hsp := stableSort_perm strLe (s1 :: s2 :: rest)
    have hpw := stableSort_strLe_pairwise (s1 :: s2 :: rest)
    have hslen : (stableSort strLe (s1 :: s2 :: rest)).length = (s1 :: s2 :: rest).length :=
      length_stableSort _ _
    have hsne : stableSort strLe (s1 :: s2 :: rest) ≠ [] := by
      intro h
      rw [h] at hslen
      simp at hslen
    have hfirst_mem : (stableSort strLe (s1 :: s2 :: rest)).getD 0 "" ∈
        stableSort strLe (s1 :: s2 :: rest) := by
      cases hh : stableSort strLe (s1 :: s2 :: rest) with
      | nil => exact absurd hh hsne
      | cons x xs => simp
    have hlast_mem := getD_last_mem (stableSort strLe (s1 :: s2 :: rest)) "" hsne
    have heq : commonPrefixChars
        ((stableSort strLe (s1 :: s2 :: rest)).getD 0 "").data
        ((stableSort strLe (s1 :: s2 :: rest)).getD
          ((stableSort strLe (s1 :: s2 :: rest)).length - 1) "").data =
        allCommonChars (s1 :: s2 :: rest) := by
      apply List.Sublist.antisymm
      · apply List.IsPrefix.sublist
        apply (prefix_allCommonChars _ hne' _).2
        intro s hs
        have hs' : s ∈ stableSort strLe (s1 :: s2 :: rest) := hsp.mem_iff.2 hs
        exact commonPrefixChars_prefix_of_between _ _ _
          (pairwise_strLe_first _ hpw s hs') (pairwise_strLe_last _ hpw s hs')
      · apply List.IsPrefix.sublist
        apply prefix_commonPrefixChars
        · exact allCommonChars_prefix _ hne' _ (hsp.mem_iff.1 hfirst_mem)
        · exact allCommonChars_prefix _ hne' _ (hsp.mem_iff.1 hlast_mem)
    rw [heq]

/-- **C6** (amended): on a list of two or more names, `longestCommonPrefix`
computes exactly the longest leading character sequence shared by *all* names
(`allCommonChars`, characterised by the last two conjuncts), trimmed of
leading **and** trailing whitespace — the sort-and-compare-extremes shortcut
is exact, but the final `trim` also removes leading whitespace. -/
theorem claim_C6_lcp (l : List String) (h2 : 2 ≤ l.length) :
    longestCommonPrefixOf l = trimStr ⟨allCommonChars l⟩ ∧
    (∀ s ∈ l, allCommonChars l <+: s.data) ∧
    (∀ p : List Char, (∀ s ∈ l, p <+: s.data) → p <+: allCommonChars l) :=
  lcp_spec l h2

/-- **C6** counterexample: on `[" ab", " ac"]` the shared leading substring
is `" a"`, whose trailing-trimmed form is `" a"`, but the code returns
`"a"` — `trim()` also removes the shared *leading* whitespace. -/
theorem claim_C6_counterexample :
    longestCommonPrefixOf [" ab", " ac"] = "a" ∧
    specLcpTrailingTrim [" ab", " ac"] = " a" ∧
    longestCommonPrefixOf [" ab", " ac"] ≠ specLcpTrailingTrim [" ab", " ac"] := by
  decide

/-- Witness for **C6**: the Frankfurt example from the spec, via the amended
theorem. -/
theorem claim_C6_witness :
    2 ≤ (["Frankfurt (Main) Hbf", "Frankfurt (Main) Süd"] : List String).length ∧
    longestCommonPrefixOf ["Frankfurt (Main) Hbf", "Frankfurt (Main) Süd"] =
      trimStr ⟨allCommonChars ["Frankfurt (Main) Hbf", "Frankfurt (Main) Süd"]⟩ ∧
    longestCommonPrefixOf ["Frankfurt (Main) Hbf", "Frankfurt (Main) Süd"] =
      "Frankfurt (Main)" :=
  ⟨by decide,
   (claim_C6_lcp ["Frankfurt (Main) Hbf", "Frankfurt (Main) Süd"] (by decide)).1,
   ((claim_C6_lcp ["Frankfurt (Main) Hbf", "Frankfurt (Main) Süd"] (by decide)).1).trans
     (by decide)⟩

/-! ## Claim C9: fallback labels -/

instance : IsAntisymm String (fun x y => strLe x y = true) := ⟨strLe_antisymm⟩

theorem allCommonChars_perm (l1 l2 : List String) (h : l1.Perm l2) (hne : l1 ≠ []) :
    allCommonChars l1 = allCommonChars l2 := by
  have hne2 : l2 ≠ [] := by
    intro hh
    exact hne (List.Perm.eq_nil (hh ▸ h))
  apply List.Sublist.antisymm
  · apply List.IsPrefix.sublist
    apply (prefix_allCommonChars l2 hne2 _).2
    intro s hs
    exact allCommonChars_prefix l1 hne s (h.mem_iff.2 hs)
  · apply List.IsPrefix.sublist
    apply (prefix_allCommonChars l1 hne _).2
    intro s hs
    exact allCommonChars_prefix l2 hne2 s (h.mem_iff.1 hs)

theorem longestCommonPrefixOf_perm (l1 l2 : List String) (h : l1.Perm l2)
    (hlen : l1.length ≠ 1) :
    longestCommonPrefixOf l1 = longestCommonPrefixOf l2 := by
  cases l1 with
  | nil =>
    rw [List.Perm.eq_nil h.symm]
  | cons a t =>
    cases t with
    | nil => exact absurd rfl hlen
    | cons b rest =>
      have h1 : 2 ≤ (a :: b :: rest).length := by simp
      have h2 : 2 ≤ l2.length := h.length_eq ▸ h1
      rw [(lcp_spec _ h1).1, (lcp_spec _ h2).1,
        allCommonChars_perm _ _ h (by simp)]

theorem decide_localeCompare_eq_strLe (x y : String) :
    decide (localeCompareM x y ≤ 0) = strLe x y := by
  by_cases h : localeCompareM x y ≤ 0
  · rw [decide_eq_true h]
    exact ((localeCompareM_le_zero x y).1 h).symm
  · rw [decide_eq_false h]
    cases hxy : strLe x y with
    | false => rfl
    | true => exact absurd ((localeCompareM_le_zero x y).2 hxy) h

theorem map_name_stableSort (sts : List Station) :
    (stableSort (fun a b => decide (localeCompareM a.stop_name b.stop_name ≤ 0)) sts).map
      (·.stop_name) = stableSort strLe (sts.map (·.stop_name)) := by
  have htot : ∀ a b : Station,
      decide (localeCompareM a.stop_name b.stop_name ≤ 0) = true ∨
      decide (localeCompareM b.stop_name a.stop_name ≤ 0) = true := by
    intro a b
    rw [decide_localeCompare_eq_strLe, decide_localeCompare_eq_strLe]
    exact strLe_total _ _
  have htrans : ∀ a b c : Station,
      decide (localeCompareM a.stop_name b.stop_name ≤ 0) = true →
      decide (localeCompareM b.stop_name c.stop_name ≤ 0) = true →
      decide (localeCompareM a.stop_name c.stop_name ≤ 0) = true := by
    intro a b c hab hbc
    rw [decide_localeCompare_eq_strLe] at hab hbc ⊢
    exact strLe_trans _ _ _ hab hbc
  apply List.eq_of_perm_of_sorted (r := fun x y : String => strLe x y = true)
  · exact ((stableSort_perm _ sts).map _).trans (stableSort_perm strLe _).symm
  · rw [show (List.Sorted fun x y : String => strLe x y = true) =
        List.Pairwise fun x y : String => strLe x y = true from rfl]
    rw [List.pairwise_map]
    have := stableSort_pairwise _ htot htrans sts
    exact this.imp fun hab => by rwa [decide_localeCompare_eq_strLe] at hab
  · exact stableSort_strLe_pairwise _

theorem data_append_ne_nil (a b : String) (ha : a.data ≠ []) : (a ++ b).data ≠ [] := by
  rw [String.data_append]
  intro h
  exact ha (List.append_eq_nil.1 h).1

theorem string_append_ne_empty_of_left (a b : String) (ha : a.data ≠ []) :
    a ++ b ≠ "" := by
  intro h
  exact data_append_ne_nil a b ha (congrArg String.data h)

/-- **C9** (amended): for a multi-member group whose longest-common-prefix
label is empty or shorter than 3 characters, the group name is the synthetic
label `Cluster (<lexicographically first member name>, ...)`, and a group's
name is never the empty string.  (The claim's no-duplicate-label part is
false: distinct groups can carry the same label, see the counterexample.) -/
theorem claim_C9_fallback_label (calcDist : Station → Station → ℚ)
    (stops : List (String × Stop)) (D : ℚ) :
    ∀ g ∈ groupStations calcDist stops D, g.isGroup = true →
      g.groupName ≠ "" ∧
      ((longestCommonPrefixOf (g.stations.map (·.stop_name)) = "" ∨
        (longestCommonPrefixOf (g.stations.map (·.stop_name))).data.length < 3) →
        g.groupName =
          "Cluster (" ++ (g.stations.map (·.stop_name)).getD 0 "" ++ ", ...)") := by
  intro g hg hgroup
  unfold groupStations at hg
  rcases List.mem_map.1 hg with ⟨kv, _, rfl⟩
  rcases hsts : kv.2 with _ | ⟨a, _ | ⟨b, rest⟩⟩
  · exact ⟨by decide, fun _ => by decide⟩
  · simp [mkGroup, hsts] at hgroup
  · set sts := a :: b :: rest with hdef
    have hmap : ((stableSort (fun x y =>
        decide (localeCompareM x.stop_name y.stop_name ≤ 0)) sts).map (·.stop_name)) =
        stableSort strLe (sts.map (·.stop_name)) := map_name_stableSort sts
    have hperm : (stableSort strLe (sts.map (·.stop_name))).Perm (sts.map (·.stop_name)) :=
      stableSort_perm _ _
    have hlen1 : (stableSort strLe (sts.map (·.stop_name))).length ≠ 1 := by
      rw [length_stableSort]
      simp [hdef]
    have hlcp : longestCommonPrefixOf ((stableSort (fun x y =>
        decide (localeCompareM x.stop_name y.stop_name ≤ 0)) sts).map (·.stop_name)) =
        longestCommonPrefixOf (sts.map (·.stop_name)) := by
      rw [hmap]
      exact longestCommonPrefixOf_perm _ _ hperm hlen1
    show (mkGroup sts).groupName ≠ "" ∧ _
    constructor
    · show (mkGroup sts).groupName ≠ ""
      unfold mkGroup
      dsimp only
      by_cases hcond : longestCommonPrefixOf (sts.map (·.stop_name)) = "" ∨
          (longestCommonPrefixOf (sts.map (·.stop_name))).data.length < 3
      · rw [if_pos hcond]
        exact string_append_ne_empty_of_left _ _ (data_append_ne_nil _ _ (by decide))
      · rw [if_neg hcond]
        intro hemp
        exact hcond (Or.inl hemp)
    · intro hcond
      rw [show (mkGroup sts).stations = stableSort (fun x y =>
          decide (localeCompareM x.stop_name y.stop_name ≤ 0)) sts from rfl] at hcond ⊢
      rw [hlcp] at hcond
      show (mkGroup sts).groupName = _
      unfold mkGroup
      dsimp only
      rw [if_pos hcond, hmap]

/-- **C9** counterexample: a run with two far-apart clusters whose members
carry the same two names produces two *distinct* groups (different member
lists) with the *same* `groupName` — labels are not unique. -/
theorem claim_C9_counterexample :
    (groupStations lineDist c9Stops (intToRat 5)).length = 2 ∧
    ((groupStations lineDist c9Stops (intToRat 5)).getD 0 default).stations ≠
      ((groupStations lineDist c9Stops (intToRat 5)).getD 1 default).stations ∧
    ((groupStations lineDist c9Stops (intToRat 5)).getD 0 default).groupName =
      ((groupStations lineDist c9Stops (intToRat 5)).getD 1 default).groupName := by
  decide

theorem getD_zero_mem (l : List α) (d : α) (h : l ≠ []) : l.getD 0 d ∈ l := by
  cases l with
  | nil => exact absurd rfl h
  | cons x xs => simp

/-- Witness for **C9**: the first group of the counterexample run has the
synthetic fallback label, which is non-empty. -/
theorem claim_C9_witness :
    ((groupStations lineDist c9Stops (intToRat 5)).getD 0 default).groupName ≠ "" ∧
    ((groupStations lineDist c9Stops (intToRat 5)).getD 0 default).groupName =
      "Cluster (" ++
        (((groupStations lineDist c9Stops (intToRat 5)).getD 0
          default).stations.map (·.stop_name)).getD 0 "" ++ ", ...)" := by
  have hmem : (groupStations lineDist c9Stops (intToRat 5)).getD 0 default ∈
      groupStations lineDist c9Stops (intToRat 5) := by
    apply getD_zero_mem
    intro hh
    have := congrArg List.length hh
    rw [show (groupStations lineDist c9Stops (intToRat 5)).length = 2 by decide] at this
    simp at this
  have h := claim_C9_fallback_label lineDist c9Stops (intToRat 5) _ hmem (by decide)
  exact ⟨h.1, h.2 (by decide)⟩

/-! ## Claim C3: threshold monotonicity -/

/-- **C3** (amended): what survives of threshold monotonicity is the
candidate enumeration — for `D1 ≤ D2` the `D1` merge queue is exactly the
`D2` merge queue restricted to the pairs at distance `≤ D1`, in the same
order.  The final grouping itself is *not* monotone in the threshold (see
the counterexample: a station's group can shrink and the number of groups
can grow when `D` increases). -/
theorem claim_C3_queue_monotone (calcDist : Station → Station → ℚ)
    (arr : List Station) (D1 D2 : ℚ) (h : D1 ≤ D2) :
    buildMergeQueue calcDist arr D1 =
      (buildMergeQueue calcDist arr D2).filter fun c => decide (c.dist ≤ D1) := by
  unfold buildMergeQueue
  rw [List.filter_flatMap]
  refine congrArg _ (funext fun i => ?_)
  rw [List.filter_filterMap]
  refine congrArg (fun f => List.filterMap f _) (funext fun j => ?_)
  dsimp only
  generalize calcDist (arr.getD i default) (arr.getD j default) = d
  by_cases hd1 : d ≤ D1
  · rw [if_pos hd1, if_pos (le_trans hd1 h)]
    simp [Option.filter, hd1]
  · rw [if_neg hd1]
    by_cases hd2 : d ≤ D2
    · rw [if_pos hd2]
      simp [Option.filter, hd1]
    · rw [if_neg hd2]
      rfl

/-- **C3** counterexample: with equator stations at positions 0, 4, 7, 9 the
station at 0 sits in a 2-member group under threshold 4 but in a singleton
group under threshold 5; and with stations at 0, 4, 5, 8, 10, 13 the run
yields 2 groups under threshold 5 but 3 groups under threshold 6 — both
monotonicity conjuncts fail. -/
theorem claim_C3_counterexample :
    ((groupStations lineDist c3SizeStops (intToRat 4)).filter (fun g =>
        decide ((stopsArrayOf c3SizeStops).getD 0 default ∈ g.stations))).map
      (fun g => g.stations.length) = [2] ∧
    ((groupStations lineDist c3SizeStops (intToRat 5)).filter (fun g =>
        decide ((stopsArrayOf c3SizeStops).getD 0 default ∈ g.stations))).map
      (fun g => g.stations.length) = [1] ∧
    (groupStations lineDist c3CountStops (intToRat 5)).length = 2 ∧
    (groupStations lineDist c3CountStops (intToRat 6)).length = 3 := by
  decide

/-- Witness for **C3** (amended): the queue restriction at a concrete input
with thresholds 4 ≤ 5. -/
theorem claim_C3_witness :
    intToRat 4 ≤ intToRat 5 ∧
    buildMergeQueue lineDist (stopsArrayOf c3SizeStops) (intToRat 4) =
      (buildMergeQueue lineDist (stopsArrayOf c3SizeStops) (intToRat 5)).filter
        (fun c => decide (c.dist ≤ intToRat 4)) :=
  ⟨by decide,
   claim_C3_queue_monotone lineDist (stopsArrayOf c3SizeStops) (intToRat 4)
     (intToRat 5) (by decide)⟩

/-! ## Union-find: parent chains -/

theorem getD_set_self (l : List α) (x : ℕ) (a d : α) (h : x < l.length) :
    (l.set x a).getD x d = a := by
  simp [List.getD_eq_getElem?_getD, List.getElem?_set, h]

theorem getD_set_ne (l : List α) (x y : ℕ) (a d : α) (h : x ≠ y) :
    (l.set x a).getD y d = l.getD y d := by
  simp [List.getD_eq_getElem?_getD, List.getElem?_set, h]

theorem ufStep_set_ne (p : List ℕ) (x y a : ℕ) (h : x ≠ y) :
    ufStep (p.set x a) y = ufStep p y := by
  unfold ufStep
  exact getD_set_ne p x y a y h

theorem ufStep_set_self (p : List ℕ) (x a : ℕ) (h : x < p.length) :
    ufStep (p.set x a) x = a := by
  unfold ufStep
  exact getD_set_self p x a x h

theorem ufStep_of_len_le (p : List ℕ) (y : ℕ) (h : p.length ≤ y) :
    ufStep p y = y := by
  unfold ufStep
  rw [List.getD_eq_getElem?_getD, List.getElem?_eq_none (by omega)]
  rfl

theorem ufIter_add (p : List ℕ) (k m x : ℕ) :
    ufIter p (k + m) x = ufIter p m (ufIter p k x) := by
  induction k generalizing x with
  | zero =>
    rw [Nat.zero_add]
    rfl
  | succ k ih =>
    have : k + 1 + m = (k + m) + 1 := by omega
    rw [this]
    show ufIter p (k + m) (ufStep p x) = _
    rw [ih (ufStep p x)]
    rfl

theorem IsUFRoot.iter_eq {p : List ℕ} {r : ℕ} (h : IsUFRoot p r) (k : ℕ) :
    ufIter p k r = r := by
  induction k with
  | zero => rfl
  | succ k ih =>
    show ufIter p k (ufStep p r) = r
    rw [h]
    exact ih

theorem IsRootOf_unique {p : List ℕ} {x r r' : ℕ} (h : IsRootOf p x r)
    (h' : IsRootOf p x r') : r = r' := by
  obtain ⟨⟨k, hk⟩, hr⟩ := h
  obtain ⟨⟨k', hk'⟩, hr'⟩ := h'
  rcases le_total k k' with hle | hle
  · have : ufIter p k' x = ufIter p (k' - k) (ufIter p k x) := by
      rw [← ufIter_add]
      congr 1
      omega
    rw [hk', hk, hr.iter_eq] at this
    exact this.symm
  · have : ufIter p k x = ufIter p (k - k') (ufIter p k' x) := by
      rw [← ufIter_add]
      congr 1
      omega
    rw [hk, hk', hr'.iter_eq] at this
    exact this

theorem IsUFRoot.isRootOf {p : List ℕ} {r : ℕ} (h : IsUFRoot p r) :
    IsRootOf p r r := ⟨⟨0, rfl⟩, h⟩

theorem IsRootOf.of_step {p : List ℕ} {x r : ℕ}
    (h : IsRootOf p (ufStep p x) r) : IsRootOf p x r := by
  obtain ⟨⟨k, hk⟩, hr⟩ := h
  exact ⟨⟨k + 1, by rw [show k + 1 = 1 + k by omega, ufIter_add]; exact hk⟩, hr⟩

theorem IsRootOf.step {p : List ℕ} {x r : ℕ} (hx : ¬ IsUFRoot p x)
    (h : IsRootOf p x r) : IsRootOf p (ufStep p x) r := by
  obtain ⟨⟨k, hk⟩, hr⟩ := h
  cases k with
  | zero =>
    have hxr : x = r := hk
    exact absurd (show IsUFRoot p x by rw [hxr]; exact hr) hx
  | succ k =>
    refine ⟨⟨k, ?_⟩, hr⟩
    rw [show k + 1 = 1 + k by omega, ufIter_add] at hk
    exact hk

theorem ufIter_lt {n : ℕ} {p : List ℕ} (hrange : ∀ y, y < n → ufStep p y < n)
    {x : ℕ} (hx : x < n) (k : ℕ) : ufIter p k x < n := by
  induction k generalizing x with
  | zero => exact hx
  | succ k ih => exact ih (hrange x hx)

theorem ufIter_of_len_le (p : List ℕ) (y : ℕ) (h : p.length ≤ y) (k : ℕ) :
    ufIter p k y = y := by
  induction k with
  | zero => rfl
  | succ k ih =>
    show ufIter p k (ufStep p y) = y
    rw [ufStep_of_len_le p y h]
    exact ih

theorem isRootOf_of_len_le {p : List ℕ} {y s : ℕ} (h : p.length ≤ y)
    (hr : IsRootOf p y s) : s = y := by
  obtain ⟨⟨k, hk⟩, _⟩ := hr
  rw [ufIter_of_len_le p y h k] at hk
  exact hk.symm

theorem exists_chain_lt {n : ℕ} {p : List ℕ} (hg : UFGood n p) {x r : ℕ}
    (hx : x < n) (hr : IsRootOf p x r) : ∃ k, k < n ∧ ufIter p k x = r := by
  obtain ⟨⟨k0, hk0⟩, hroot⟩ := hr
  have hex : ∃ k, ufIter p k x = r := ⟨k0, hk0⟩
  let kf := Nat.find hex
  have hkf : ufIter p kf x = r := Nat.find_spec hex
  have hmin : ∀ m, m < kf → ufIter p m x ≠ r := fun m hm => Nat.find_min hex hm
  have hinj : Function.Injective (fun a : Fin (kf + 1) =>
      (⟨ufIter p a.1 x, ufIter_lt hg.2.1 hx a.1⟩ : Fin n)) := by
    intro a b hab
    simp only [Fin.mk.injEq] at hab
    rcases le_total a.1 b.1 with hle | hle
    · by_contra hne
      have hlt : a.1 < b.1 := lt_of_le_of_ne hle (fun hh => hne (Fin.ext hh))
      have : ufIter p (a.1 + (kf - b.1)) x = r := by
        rw [ufIter_add, hab, ← ufIter_add]
        rw [show b.1 + (kf - b.1) = kf by omega]
        exact hkf
      have hb : b.1 ≤ kf := by omega
      exact hmin _ (by omega) this
    · by_contra hne
      have hlt : b.1 < a.1 := lt_of_le_of_ne hle (fun hh => hne (Fin.ext hh.symm))
      have : ufIter p (b.1 + (kf - a.1)) x = r := by
        rw [ufIter_add, ← hab, ← ufIter_add]
        rw [show a.1 + (kf - a.1) = kf by omega]
        exact hkf
      have ha : a.1 ≤ kf := by omega
      exact hmin _ (by omega) this
  have hcard := Fintype.card_le_of_injective _ hinj
  simp only [Fintype.card_fin] at hcard
  exact ⟨kf, by omega, hkf⟩

theorem root_lt {n : ℕ} {p : List ℕ} (hg : UFGood n p) {x r : ℕ} (hx : x < n)
    (hr : IsRootOf p x r) : r < n := by
  obtain ⟨⟨k, hk⟩, _⟩ := hr
  rw [← hk]
  exact ufIter_lt hg.2.1 hx k

theorem ufRootD_isRootOf {n : ℕ} {p : List ℕ} (hg : UFGood n p) {x : ℕ} (hx : x < n) :
    IsRootOf p x (ufRootD p x) := by
  obtain ⟨r, hr⟩ := hg.2.2 x hx
  obtain ⟨k, hkn, hk⟩ := exists_chain_lt hg hx hr
  have : ufRootD p x = r := by
    unfold ufRootD
    rw [hg.1, show n = k + (n - k) by omega, ufIter_add, hk, hr.2.iter_eq]
  rw [this]
  exact hr

theorem isRootOf_iff_ufRootD {n : ℕ} {p : List ℕ} (hg : UFGood n p) {x r : ℕ}
    (hx : x < n) : IsRootOf p x r ↔ r = ufRootD p x :=
  ⟨fun h => IsRootOf_unique h (ufRootD_isRootOf hg hx),
   fun h => h ▸ ufRootD_isRootOf hg hx⟩

/-! ## Union-find: path compression (`findAux`) and union -/

theorem setRoot_forward {n : ℕ} {p : List ℕ} {x r : ℕ} (hg : UFGood n p)
    (hxn : x < n) (hr : IsRootOf p x r) :
    ∀ k y s, ufIter p k y = s → IsUFRoot p s → IsRootOf (p.set x r) y s := by
  have hlen : p.length = n := hg.1
  have hrn : r < n := root_lt hg hxn hr
  intro k
  induction k with
  | zero =>
    intro y s hk hroot
    subst hk
    by_cases hyx : y = x
    · subst hyx
      have hrx : r = y := IsRootOf_unique hr hroot.isRootOf
      subst hrx
      refine ⟨⟨0, rfl⟩, ?_⟩
      show ufStep (p.set r r) r = r
      rw [ufStep_set_self p r r (hlen ▸ hrn)]
    · refine ⟨⟨0, rfl⟩, ?_⟩
      show ufStep (p.set x r) y = y
      rw [ufStep_set_ne p x y r (fun hh => hyx hh.symm)]
      exact hroot
  | succ k ih =>
    intro y s hk hroot
    by_cases hyx : y = x
    · subst hyx
      have hs : IsRootOf p y s := ⟨⟨k + 1, hk⟩, hroot⟩
      have hsr : r = s := IsRootOf_unique hr hs
      subst hsr
      by_cases hrx : r = y
      · subst hrx
        refine ⟨⟨0, rfl⟩, ?_⟩
        show ufStep (p.set r r) r = r
        rw [ufStep_set_self p r r (hlen ▸ hrn)]
      · refine ⟨⟨1, ?_⟩, ?_⟩
        · show ufIter (p.set y r) 0 (ufStep (p.set y r) y) = r
          rw [ufStep_set_self p y r (hlen ▸ hxn)]
          rfl
        · show ufStep (p.set y r) r = r
          rw [ufStep_set_ne p y r r (fun hh => hrx hh.symm)]
          exact hr.2
    · have hk' : ufIter p k (ufStep p y) = s := hk
      have hrec := ih (ufStep p y) s hk' hroot
      obtain ⟨⟨m, hm⟩, hroot'⟩ := hrec
      refine ⟨⟨m + 1, ?_⟩, hroot'⟩
      rw [show m + 1 = 1 + m by omega, ufIter_add]
      show ufIter (p.set x r) m (ufStep (p.set x r) y) = s
      rw [ufStep_set_ne p x y r (fun hh => hyx hh.symm)]
      exact hm

theorem setRoot_spec {n : ℕ} {p : List ℕ} {x r : ℕ} (hg : UFGood n p)
    (hxn : x < n) (hr : IsRootOf p x r) :
    UFGood n (p.set x r) ∧ (∀ y s, IsRootOf (p.set x r) y s ↔ IsRootOf p y s) := by
  have hlen : p.length = n := hg.1
  have hrn : r < n := root_lt hg hxn hr
  have hfwd : ∀ y s, IsRootOf p y s → IsRootOf (p.set x r) y s := by
    intro y s hs
    obtain ⟨⟨k, hk⟩, hroot⟩ := hs
    exact setRoot_forward hg hxn hr k y s hk hroot
  have hlen' : (p.set x r).length = n := by rw [List.length_set, hlen]
  have hrange' : ∀ y, y < n → ufStep (p.set x r) y < n := by
    intro y hy
    by_cases hyx : y = x
    · rw [hyx, ufStep_set_self p x r (hlen ▸ hxn)]
      exact hrn
    · rw [ufStep_set_ne p x y r (fun hh => hyx hh.symm)]
      exact hg.2.1 y hy
  have hgood' : UFGood n (p.set x r) := by
    refine ⟨hlen', hrange', fun y hy => ?_⟩
    obtain ⟨s, hs⟩ := hg.2.2 y hy
    exact ⟨s, hfwd y s hs⟩
  refine ⟨hgood', fun y s => ⟨fun hs => ?_, hfwd y s⟩⟩
  by_cases hy : y < n
  · obtain ⟨s₀, hs₀⟩ := hg.2.2 y hy
    have := hfwd y s₀ hs₀
    rw [IsRootOf_unique hs this]
    exact hs₀
  · have hsy := isRootOf_of_len_le (show (p.set x r).length ≤ y by omega) hs
    rw [hsy]
    have hroot : IsUFRoot p y := ufStep_of_len_le p y (by omega)
    exact hroot.isRootOf

theorem findAux_spec {n : ℕ} :
    ∀ (fuel : ℕ) (p : List ℕ) (x r k : ℕ),
      UFGood n p → x < n → ufIter p k x = r → IsUFRoot p r → k ≤ fuel →
      (findAux fuel p x).1 = r ∧
      UFGood n (findAux fuel p x).2 ∧
      (∀ y s, IsRootOf (findAux fuel p x).2 y s ↔ IsRootOf p y s) := by
  intro fuel
  induction fuel with
  | zero =>
    intro p x r k hg hx hk hroot hkf
    have hk0 : k = 0 := by omega
    subst hk0
    subst hk
    exact ⟨rfl, hg, fun y s => Iff.rfl⟩
  | succ fuel ih =>
    intro p x r k hg hx hk hroot hkf
    unfold findAux
    dsimp only
    by_cases hpx : p.getD x x = x
    · rw [if_pos hpx]
      have hxroot : IsUFRoot p x := hpx
      have hrx : r = x := IsRootOf_unique ⟨⟨k, hk⟩, hroot⟩ hxroot.isRootOf
      exact ⟨hrx.symm, hg, fun y s => Iff.rfl⟩
    · rw [if_neg hpx]
      have hxnotroot : ¬ IsUFRoot p x := hpx
      cases k with
      | zero =>
        have hxr : x = r := hk
        exact absurd (show IsUFRoot p x by rw [hxr]; exact hroot) hxnotroot
      | succ k =>
        have hpxn : ufStep p x < n := hg.2.1 x hx
        have hk' : ufIter p k (ufStep p x) = r := hk
        have hrec := ih p (ufStep p x) r k hg hpxn hk' hroot (by omega)
        obtain ⟨h1, h2, h3⟩ := hrec
        have hrx : IsRootOf (findAux fuel p (ufStep p x)).2 x r := by
          apply (h3 x r).2
          exact (IsRootOf.step hxnotroot ⟨⟨k + 1, hk⟩, hroot⟩).of_step
        have hset := setRoot_spec (x := x) (r := (findAux fuel p (ufStep p x)).1) h2 hx
          (h1.symm ▸ hrx)
        exact ⟨h1, hset.1, fun y s => (hset.2 y s).trans (h3 y s)⟩

theorem isUFRoot_transfer {p p' : List ℕ}
    (hiff : ∀ y s, IsRootOf p' y s ↔ IsRootOf p y s) (r : ℕ) :
    IsUFRoot p' r ↔ IsUFRoot p r := by
  constructor
  · intro h
    exact ((hiff r r).1 h.isRootOf).2
  · intro h
    exact ((hiff r r).2 h.isRootOf).2

theorem unionRoot_forward {n : ℕ} {p : List ℕ} {rI rJ : ℕ} (hg : UFGood n p)
    (hI : IsUFRoot p rI) (hJ : IsUFRoot p rJ) (hJn : rJ < n) (hne : rI ≠ rJ) :
    ∀ k y s, ufIter p k y = s → IsUFRoot p s →
      IsRootOf (p.set rJ rI) y (if s = rJ then rI else s) := by
  have hlen := hg.1
  have hJroot : IsRootOf (p.set rJ rI) rJ rI := by
    refine ⟨⟨1, ?_⟩, ?_⟩
    · show ufIter (p.set rJ rI) 0 (ufStep (p.set rJ rI) rJ) = rI
      rw [ufStep_set_self p rJ rI (hlen ▸ hJn)]
      rfl
    · show ufStep (p.set rJ rI) rI = rI
      rw [ufStep_set_ne p rJ rI rI (fun hh => hne hh.symm)]
      exact hI
  intro k
  induction k with
  | zero =>
    intro y s hk hroot
    have hys : y = s := hk
    by_cases hsj : s = rJ
    · rw [if_pos hsj, hys, hsj]
      exact hJroot
    · rw [if_neg hsj]
      rw [hys]
      refine ⟨⟨0, rfl⟩, ?_⟩
      show ufStep (p.set rJ rI) s = s
      rw [ufStep_set_ne p rJ s rI (fun hh => hsj hh.symm)]
      exact hroot
  | succ k ih =>
    intro y s hk hroot
    by_cases hyj : y = rJ
    · have hs : s = rJ := by
        rw [← hk, hyj]
        exact hJ.iter_eq (k + 1)
      rw [if_pos hs, hyj]
      exact hJroot
    · have hk' : ufIter p k (ufStep p y) = s := hk
      have hrec := ih (ufStep p y) s hk' hroot
      obtain ⟨⟨m, hm⟩, hroot'⟩ := hrec
      refine ⟨⟨m + 1, ?_⟩, hroot'⟩
      rw [show m + 1 = 1 + m by omega, ufIter_add]
      show ufIter (p.set rJ rI) m (ufStep (p.set rJ rI) y) = _
      rw [ufStep_set_ne p rJ y rI (fun hh => hyj hh.symm)]
      exact hm

theorem unionRoot_spec {n : ℕ} {p : List ℕ} {rI rJ : ℕ} (hg : UFGood n p)
    (hI : IsUFRoot p rI) (hJ : IsUFRoot p rJ) (hIn : rI < n) (hJn : rJ < n)
    (hne : rI ≠ rJ) :
    UFGood n (p.set rJ rI) ∧
    (∀ y, y < n → ∀ s, (IsRootOf (p.set rJ rI) y s ↔
      ∃ s₀, IsRootOf p y s₀ ∧ s = if s₀ = rJ then rI else s₀)) := by
  have hlen := hg.1
  have hfwd : ∀ y s₀, IsRootOf p y s₀ →
      IsRootOf (p.set rJ rI) y (if s₀ = rJ then rI else s₀) := by
    intro y s₀ hs₀
    obtain ⟨⟨k, hk⟩, hroot⟩ := hs₀
    exact unionRoot_forward hg hI hJ hJn hne k y s₀ hk hroot
  have hlen' : (p.set rJ rI).length = n := by rw [List.length_set, hlen]
  have hgood : UFGood n (p.set rJ rI) := by
    refine ⟨hlen', ?_, ?_⟩
    · intro z hz
      by_cases hzj : z = rJ
      · rw [hzj, ufStep_set_self p rJ rI (hlen ▸ hJn)]
        exact hIn
      · rw [ufStep_set_ne p rJ z rI (fun hh => hzj hh.symm)]
        exact hg.2.1 z hz
    · intro z hz
      obtain ⟨s₀, hs₀⟩ := hg.2.2 z hz
      exact ⟨_, hfwd z s₀ hs₀⟩
  refine ⟨hgood, fun y hy s => ⟨fun hs => ?_, fun ⟨s₀, hs₀, hmap⟩ => hmap ▸ hfwd y s₀ hs₀⟩⟩
  obtain ⟨s₀, hs₀⟩ := hg.2.2 y hy
  have := hfwd y s₀ hs₀
  exact ⟨s₀, hs₀, IsRootOf_unique hs this⟩

theorem mergeInv_transfer (calcDist : Station → Station → ℚ) (arr : List Station)
    (D : ℚ) (cs : List (List ℕ)) (p p' : List ℕ)
    (hin : MergeInv calcDist arr D ⟨p, cs⟩) (hg' : UFGood arr.length p')
    (hiff : ∀ y s, IsRootOf p' y s ↔ IsRootOf p y s) :
    MergeInv calcDist arr D ⟨p', cs⟩ := by
  refine ⟨hg', hin.clen, ?_, hin.nodup, ?_⟩
  · intro r hroot hr x
    rw [hin.mem_iff r ((isUFRoot_transfer hiff r).1 hroot) hr x]
    constructor
    · exact fun ⟨h1, h2⟩ => ⟨h1, (hiff x r).2 h2⟩
    · exact fun ⟨h1, h2⟩ => ⟨h1, (hiff x r).1 h2⟩
  · intro r hroot hr
    exact hin.linkage r ((isUFRoot_transfer hiff r).1 hroot) hr

theorem mergeStep_inv (calcDist : Station → Station → ℚ) (arr : List Station) (D : ℚ)
    (hsymm : ∀ a b, calcDist a b = calcDist b a)
    (s : UFState) (c : MergeCand) (hin : MergeInv calcDist arr D s)
    (hci : c.i < arr.length) (hcj : c.j < arr.length) :
    MergeInv calcDist arr D (mergeStep calcDist arr D s c) := by
  obtain ⟨rI0, hrI0⟩ := hin.good.2.2 c.i hci
  obtain ⟨k₁, hk₁n, hk₁⟩ := exists_chain_lt hin.good hci hrI0
  have hfa1 := findAux_spec (n := arr.length) s.parent.length s.parent c.i rI0 k₁
    hin.good hci hk₁ hrI0.2 (by rw [hin.good.1]; omega)
  obtain ⟨hf1r, hf1g, hf1iff⟩ := hfa1
  obtain ⟨rJ0, hrJ0⟩ := hf1g.2.2 c.j hcj
  obtain ⟨k₂, hk₂n, hk₂⟩ := exists_chain_lt hf1g hcj hrJ0
  have hfa2 := findAux_spec (n := arr.length)
    (findAux s.parent.length s.parent c.i).2.length
    (findAux s.parent.length s.parent c.i).2 c.j rJ0 k₂
    hf1g hcj hk₂ hrJ0.2 (by rw [hf1g.1]; omega)
  obtain ⟨hf2r, hf2g, hf2iff⟩ := hfa2
  unfold mergeStep
  dsimp only
  set p₁ := (findAux s.parent.length s.parent c.i).2 with hp₁
  set rI := (findAux s.parent.length s.parent c.i).1 with hrIdef
  set p₂ := (findAux p₁.length p₁ c.j).2 with hp₂
  set rJ := (findAux p₁.length p₁ c.j).1 with hrJdef
  have hiff : ∀ y s₀, IsRootOf p₂ y s₀ ↔ IsRootOf s.parent y s₀ :=
    fun y s₀ => (hf2iff y s₀).trans (hf1iff y s₀)
  have hin₂ : MergeInv calcDist arr D ⟨p₂, s.clusterStations⟩ :=
    mergeInv_transfer calcDist arr D s.clusterStations s.parent p₂
      (by cases s; exact hin) hf2g hiff
  by_cases heq : rI = rJ
  · rw [if_pos heq]
    exact hin₂
  · rw [if_neg heq]
    -- rI and rJ are distinct roots of p₂, both < n
    have hrIr : IsUFRoot p₂ rI := by
      rw [isUFRoot_transfer hiff rI, hf1r]
      exact hrI0.2
    have hrJr : IsUFRoot p₂ rJ := by
      rw [isUFRoot_transfer hf2iff rJ, hf2r]
      exact hrJ0.2
    have hrIn : rI < arr.length := by
      rw [hf1r]
      exact root_lt hin.good hci hrI0
    have hrJn : rJ < arr.length := by
      rw [hf2r]
      exact root_lt hf1g hcj hrJ0
    have hunion := unionRoot_spec hin₂.good hrIr hrJr hrIn hrJn heq
    by_cases hvalid : ((s.clusterStations.getD rI []).all fun si =>
        (s.clusterStations.getD rJ []).all fun sj =>
          decide (calcDist (arr.getD si default) (arr.getD sj default) ≤ D)) = true
    · rw [if_pos hvalid]
      have hcross : ∀ si ∈ s.clusterStations.getD rI [],
          ∀ sj ∈ s.clusterStations.getD rJ [],
          calcDist (arr.getD si default) (arr.getD sj default) ≤ D := by
        intro si hsi sj hsj
        rw [List.all_eq_true] at hvalid
        have := hvalid si hsi
        rw [List.all_eq_true] at this
        exact of_decide_eq_true (this sj hsj)
      have hcslen : s.clusterStations.length = arr.length := hin₂.clen
      -- bucket shapes in the updated cluster array
      have hbJ : ∀ r, r = rJ →
          ((s.clusterStations.set rI (s.clusterStations.getD rI [] ++
            s.clusterStations.getD rJ [])).set rJ []).getD r [] = [] := by
        intro r hr
        rw [hr]
        exact getD_set_self _ rJ [] [] (by rw [List.length_set, hcslen]; exact hrJn)
      have hbI : ((s.clusterStations.set rI (s.clusterStations.getD rI [] ++
            s.clusterStations.getD rJ [])).set rJ []).getD rI [] =
          s.clusterStations.getD rI [] ++ s.clusterStations.getD rJ [] := by
        rw [getD_set_ne _ rJ rI [] [] (fun hh => heq hh.symm)]
        exact getD_set_self _ rI _ [] (by rw [hcslen]; exact hrIn)
      have hbO : ∀ r, r ≠ rI → r ≠ rJ →
          ((s.clusterStations.set rI (s.clusterStations.getD rI [] ++
            s.clusterStations.getD rJ [])).set rJ []).getD r [] =
          s.clusterStations.getD r [] := by
        intro r h1 h2
        rw [getD_set_ne _ rJ r [] [] (fun hh => h2 hh.symm),
          getD_set_ne _ rI r _ [] (fun hh => h1 hh.symm)]
      -- roots of the union parent
      have hrootJ' : ¬ IsUFRoot (p₂.set rJ rI) rJ := by
        intro hh
        unfold IsUFRoot at hh
        rw [ufStep_set_self p₂ rJ rI (by rw [hin₂.good.1]; exact hrJn)] at hh
        exact heq hh
      have hrootO : ∀ r, r ≠ rJ → (IsUFRoot (p₂.set rJ rI) r ↔ IsUFRoot p₂ r) := by
        intro r hr
        unfold IsUFRoot
        rw [ufStep_set_ne p₂ rJ r rI (fun hh => hr hh.symm)]
      refine ⟨hunion.1, ?_, ?_, ?_, ?_⟩
      · rw [List.length_set, List.length_set]
        exact hcslen
      · -- membership characterisation
        intro r hroot hr x
        by_cases hrj : r = rJ
        · exact absurd (hrj ▸ hroot) hrootJ'
        · by_cases hri : r = rI
          · subst hri
            rw [hbI, List.mem_append]
            constructor
            · rintro (hx | hx)
              · obtain ⟨hxn, hxr⟩ := (hin₂.mem_iff rI hrIr hrIn x).1 hx
                refine ⟨hxn, ?_⟩
                rw [hunion.2 x hxn rI]
                exact ⟨rI, hxr, by rw [if_neg heq]⟩
              · obtain ⟨hxn, hxr⟩ := (hin₂.mem_iff rJ hrJr hrJn x).1 hx
                refine ⟨hxn, ?_⟩
                rw [hunion.2 x hxn rI]
                exact ⟨rJ, hxr, by rw [if_pos rfl]⟩
            · rintro ⟨hxn, hxr⟩
              rw [hunion.2 x hxn rI] at hxr
              obtain ⟨s₀, hs₀, hmap⟩ := hxr
              by_cases hs₀j : s₀ = rJ
              · right
                rw [← hs₀j]
                exact (hin₂.mem_iff s₀ (hs₀j ▸ hrJr) (hs₀j ▸ hrJn) x).2 ⟨hxn, hs₀⟩
              · left
                rw [if_neg hs₀j] at hmap
                rw [hmap]
                exact (hin₂.mem_iff s₀ ((hmap ▸ hrIr : IsUFRoot p₂ s₀))
                  (hmap ▸ hrIn) x).2 ⟨hxn, hs₀⟩
          · rw [hbO r hri hrj]
            have hrootp₂ : IsUFRoot p₂ r := (hrootO r hrj).1 hroot
            rw [hin₂.mem_iff r hrootp₂ hr x]
            constructor
            · rintro ⟨hxn, hxr⟩
              refine ⟨hxn, ?_⟩
              rw [hunion.2 x hxn r]
              exact ⟨r, hxr, by rw [if_neg hrj]⟩
            · rintro ⟨hxn, hxr⟩
              rw [hunion.2 x hxn r] at hxr
              obtain ⟨s₀, hs₀, hmap⟩ := hxr
              by_cases hs₀j : s₀ = rJ
              · rw [if_pos hs₀j] at hmap
                exact absurd hmap hri
              · rw [if_neg hs₀j] at hmap
                exact ⟨hxn, hmap ▸ hs₀⟩
      · -- no duplicates in any bucket
        intro r
        by_cases hrj : r = rJ
        · rw [hbJ r hrj]
          exact List.Pairwise.nil
        · by_cases hri : r = rI
          · rw [hri, hbI]
            refine List.Nodup.append (hin₂.nodup rI) (hin₂.nodup rJ) ?_
            intro x hxI hxJ
            obtain ⟨hxn, hxrI⟩ := (hin₂.mem_iff rI hrIr hrIn x).1 hxI
            obtain ⟨_, hxrJ⟩ := (hin₂.mem_iff rJ hrJr hrJn x).1 hxJ
            exact heq (IsRootOf_unique hxrI hxrJ)
          · rw [hbO r hri hrj]
            exact hin₂.nodup r
      · -- complete-linkage invariant
        intro r hroot hr a ha b hb hab
        by_cases hrj : r = rJ
        · rw [hbJ r hrj] at ha
          exact absurd ha (by simp)
        · by_cases hri : r = rI
          · subst hri
            rw [hbI, List.mem_append] at ha hb
            have hlinkI := hin₂.linkage rI hrIr hrIn
            have hlinkJ := hin₂.linkage rJ hrJr hrJn
            rcases ha with ha | ha
            · rcases hb with hb | hb
              · exact hlinkI a ha b hb hab
              · exact hcross a ha b hb
            · rcases hb with hb | hb
              · rw [hsymm]
                exact hcross b hb a ha
              · exact hlinkJ a ha b hb hab
          · rw [hbO r hri hrj] at ha hb
            exact hin₂.linkage r ((hrootO r hrj).1 hroot) hr a ha b hb hab
    · rw [if_neg hvalid]
      exact hin₂

/-- Witness for **C5**: a concrete non-empty query on a one-group list. -/
theorem claim_C5_witness :
    ("a" : String) ≠ "" ∧
    ((searchStationGroups c5Groups "a" 1).length ≤ 1 ∧
    (∀ g ∈ searchStationGroups c5Groups "a" 1, eligibleFor (lowerStr "a") g) ∧
    (c5Groups.countP (matchesSearch (lowerStr "a")) ≤ 1 →
      ∀ g ∈ c5Groups, eligibleFor (lowerStr "a") g →
        g ∈ searchStationGroups c5Groups "a" 1) ∧
    (∃ rest : List StationGroup,
      (searchStationGroups c5Groups "a" 1 ++ rest).Perm
        (c5Groups.filter (matchesSearch (lowerStr "a"))) ∧
      (searchStationGroups c5Groups "a" 1).length =
        min 1 (c5Groups.countP (matchesSearch (lowerStr "a"))) ∧
      ∀ g ∈ searchStationGroups c5Groups "a" 1, ∀ h ∈ rest,
        rankedBefore (lowerStr "a") g h)) :=
  ⟨by decide, claim_C5_filter_and_limit c5Groups "a" 1 (by decide)⟩

theorem ufStep_range (n x : ℕ) : ufStep (List.range n) x = x := by
  unfold ufStep
  rcases Nat.lt_or_ge x n with h | h
  · rw [List.getD_eq_getElem?_getD, List.getElem?_range h]
    rfl
  · rw [List.getD_eq_getElem?_getD, List.getElem?_eq_none (by simpa using h)]
    rfl

theorem ufIter_range (n k x : ℕ) : ufIter (List.range n) k x = x := by
  induction k with
  | zero => rfl
  | succ k ih =>
    show ufIter (List.range n) k (ufStep (List.range n) x) = x
    rw [ufStep_range]
    exact ih

theorem mergeInv_init (calcDist : Station → Station → ℚ) (arr : List Station) (D : ℚ) :
    MergeInv calcDist arr D
      ⟨List.range arr.length, (List.range arr.length).map fun i => [i]⟩ := by
  have hgood : UFGood arr.length (List.range arr.length) :=
    ⟨List.length_range arr.length, fun x hx => by rw [ufStep_range]; exact hx,
     fun x _ => ⟨x, ⟨0, rfl⟩, ufStep_range arr.length x⟩⟩
  have hbucket : ∀ r, r < arr.length →
      (((List.range arr.length).map fun i => [i]).getD r [] : List ℕ) = [r] := by
    intro r hr
    rw [List.getD_eq_getElem?_getD, List.getElem?_map, List.getElem?_range hr]
    rfl
  have hbucket' : ∀ r, arr.length ≤ r →
      (((List.range arr.length).map fun i => [i]).getD r [] : List ℕ) = [] := by
    intro r hr
    rw [List.getD_eq_getElem?_getD, List.getElem?_eq_none (by simpa using hr)]
    rfl
  refine ⟨hgood, by simp, ?_, ?_, ?_⟩
  · intro r _ hr x
    rw [hbucket r hr]
    simp only [List.mem_singleton]
    constructor
    · intro hx
      rw [hx]
      exact ⟨hr, ⟨0, rfl⟩, ufStep_range arr.length r⟩
    · rintro ⟨_, ⟨k, hk⟩, _⟩
      rw [ufIter_range] at hk
      exact hk
  · intro r
    rcases Nat.lt_or_ge r arr.length with h | h
    · rw [hbucket r h]
      exact List.nodup_singleton r
    · rw [hbucket' r h]
      exact List.Pairwise.nil
  · intro r _ hr a ha b hb hab
    rw [hbucket r hr] at ha hb
    simp only [List.mem_singleton] at ha hb
    exact absurd (ha.trans hb.symm) hab

theorem buildMergeQueue_bounds (calcDist : Station → Station → ℚ) (arr : List Station)
    (D : ℚ) : ∀ c ∈ buildMergeQueue calcDist arr D, c.i < arr.length ∧ c.j < arr.length := by
  intro c hc
  simp only [buildMergeQueue, List.mem_flatMap, List.mem_filterMap, List.mem_filter,
    List.mem_range, decide_eq_true_eq] at hc
  obtain ⟨i, hi, j, ⟨hjn, _⟩, hcj⟩ := hc
  by_cases hd : calcDist (arr.getD i default) (arr.getD j default) ≤ D
  · rw [if_pos hd] at hcj
    obtain rfl := Option.some.inj hcj
    exact ⟨hi, hjn⟩
  · rw [if_neg hd] at hcj
    exact absurd hcj (by simp)

theorem mergeInv_fold (calcDist : Station → Station → ℚ) (arr : List Station) (D : ℚ)
    (hsymm : ∀ a b, calcDist a b = calcDist b a) :
    ∀ (queue : List MergeCand) (s : UFState),
      (∀ c ∈ queue, c.i < arr.length ∧ c.j < arr.length) →
      MergeInv calcDist arr D s →
      MergeInv calcDist arr D (queue.foldl (mergeStep calcDist arr D) s) := by
  intro queue
  induction queue with
  | nil =>
    intro s _ hs
    exact hs
  | cons c cs ih =>
    intro s hb hs
    rw [List.foldl_cons]
    exact ih _ (fun c' hc' => hb c' (List.mem_cons_of_mem _ hc'))
      (mergeStep_inv calcDist arr D hsymm s c hs (hb c (List.mem_cons_self c cs)).1
        (hb c (List.mem_cons_self c cs)).2)

theorem pushToCluster_mem_key (m : List (ℕ × List Station)) (root : ℕ) :
    (m.any fun kv => decide (kv.1 = root)) = true ↔ root ∈ m.map Prod.fst := by
  simp only [List.any_eq_true, decide_eq_true_eq, List.mem_map]

theorem buildInv_init (arr : List Station) (pM : List ℕ) (hgM : UFGood arr.length pM) :
    BuildInv arr pM 0 ([], pM) :=
  ⟨hgM, fun _ _ => Iff.rfl, List.nodup_nil,
   fun kv hkv => absurd hkv (List.not_mem_nil kv),
   fun i hi => absurd hi (Nat.not_lt_zero i),
   fun kv hkv => absurd hkv (List.not_mem_nil kv)⟩

theorem filter_range_succ (k : ℕ) (p : ℕ → Bool) :
    (List.range (k + 1)).filter p =
      (List.range k).filter p ++ (if p k = true then [k] else []) := by
  rw [List.range_succ, List.filter_append]
  congr 1
  rw [List.filter_singleton]
  cases h : p k <;> simp

theorem buildInv_step (arr : List Station) (pM : List ℕ) (hgM : UFGood arr.length pM)
    (k : ℕ) (hk : k < arr.length) (acc : List (ℕ × List Station) × List ℕ)
    (h : BuildInv arr pM k acc) :
    BuildInv arr pM (k + 1)
      (pushToCluster acc.1 (findAux acc.2.length acc.2 k).1 (arr.getD k default),
       (findAux acc.2.length acc.2 k).2) := by
  obtain ⟨r0, hr0⟩ := h.good.2.2 k hk
  obtain ⟨k₁, hk₁n, hk₁⟩ := exists_chain_lt h.good hk hr0
  obtain ⟨hf1, hfg, hfiff⟩ := findAux_spec (n := arr.length) acc.2.length acc.2 k r0 k₁
    h.good hk hk₁ hr0.2 (by rw [h.good.1]; omega)
  have hr0pM : IsRootOf pM k r0 := (h.hiff k r0).1 hr0
  have hr0D : ufRootD pM k = r0 := ((isRootOf_iff_ufRootD hgM hk).1 hr0pM).symm
  have hrr0 : (findAux acc.2.length acc.2 k).1 = r0 := hf1
  have hrange : ∀ y : ℕ,
      ((List.range (k + 1)).filter fun i => decide (ufRootD pM i = y)) =
      ((List.range k).filter fun i => decide (ufRootD pM i = y)) ++
      (if ufRootD pM k = y then [k] else []) := by
    intro y
    rw [filter_range_succ]
    congr 1
    by_cases hy : ufRootD pM k = y
    · rw [if_pos (decide_eq_true hy), if_pos hy]
    · rw [if_neg (by simpa using hy), if_neg hy]
  rw [hrr0]
  by_cases hp : (acc.1.any fun kv => decide (kv.1 = r0)) = true
  · have hnew : pushToCluster acc.1 r0 (arr.getD k default) =
        acc.1.map fun kv => if kv.1 = r0 then (kv.1, kv.2 ++ [arr.getD k default]) else kv := by
      unfold pushToCluster
      rw [if_pos hp]
    have hkeys : ((acc.1.map fun kv =>
        if kv.1 = r0 then (kv.1, kv.2 ++ [arr.getD k default]) else kv).map Prod.fst) =
        acc.1.map Prod.fst := by
      rw [List.map_map]
      apply List.map_congr_left
      intro kv _
      dsimp only [Function.comp]
      by_cases hkv : kv.1 = r0
      · rw [if_pos hkv]
      · rw [if_neg hkv]
    refine ⟨hfg, fun y s => (hfiff y s).trans (h.hiff y s), ?_, ?_, ?_, ?_⟩ <;>
      dsimp only <;> rw [hnew]
    · rw [hkeys]
      exact h.keys_nodup
    · intro kv' hkv'
      rw [List.mem_map] at hkv'
      obtain ⟨kv, hkv, hkv'eq⟩ := hkv'
      by_cases hkvr : kv.1 = r0
      · rw [if_pos hkvr] at hkv'eq
        rw [← hkv'eq]
        dsimp only
        rw [hrange kv.1, if_pos (by rw [hr0D, hkvr]), List.map_append, ← h.buckets kv hkv]
        rfl
      · rw [if_neg hkvr] at hkv'eq
        rw [← hkv'eq, hrange kv.1,
          if_neg (fun hc => hkvr (by rw [← hc, hr0D])), List.append_nil]
        exact h.buckets kv hkv
    · intro i hi
      rw [hkeys]
      rcases Nat.lt_or_ge i k with hik | hik
      · exact h.complete i hik
      · have : i = k := by omega
        rw [this, hr0D]
        exact (pushToCluster_mem_key acc.1 r0).1 hp
    · intro kv' hkv'
      rw [List.mem_map] at hkv'
      obtain ⟨kv, hkv, hkv'eq⟩ := hkv'
      obtain ⟨i, hik, hieq⟩ := h.keys_from kv hkv
      refine ⟨i, by omega, ?_⟩
      rw [hieq, ← hkv'eq]
      by_cases hkvr : kv.1 = r0
      · rw [if_pos hkvr]
      · rw [if_neg hkvr]
  · have hnew : pushToCluster acc.1 r0 (arr.getD k default) =
        acc.1 ++ [(r0, [arr.getD k default])] := by
      unfold pushToCluster
      rw [if_neg hp]
    have hrnotin : r0 ∉ acc.1.map Prod.fst :=
      fun hc => hp ((pushToCluster_mem_key acc.1 r0).2 hc)
    refine ⟨hfg, fun y s => (hfiff y s).trans (h.hiff y s), ?_, ?_, ?_, ?_⟩ <;>
      dsimp only <;> rw [hnew]
    · rw [List.map_append]
      refine List.Nodup.append h.keys_nodup (List.nodup_singleton r0) ?_
      intro x hx hx'
      rw [List.map_singleton, List.mem_singleton] at hx'
      rw [hx'] at hx
      exact hrnotin hx
    · intro kv' hkv'
      rw [List.mem_append] at hkv'
      rcases hkv' with hkv' | hkv'
      · rw [hrange kv'.1,
          if_neg (fun hc => hrnotin (by
            rw [hr0D] at hc
            rw [hc]
            exact List.mem_map_of_mem Prod.fst hkv')), List.append_nil]
        exact h.buckets kv' hkv'
      · rw [List.mem_singleton] at hkv'
        rw [hkv']
        dsimp only
        rw [hrange r0, if_pos hr0D]
        have hempty : ((List.range k).filter fun i => decide (ufRootD pM i = r0)) = [] := by
          rw [List.filter_eq_nil_iff]
          intro i hi hpi
          rw [List.mem_range] at hi
          rw [decide_eq_true_eq] at hpi
          have := h.complete i hi
          rw [hpi] at this
          exact hrnotin this
        rw [hempty]
        rfl
    · intro i hi
      rw [List.map_append, List.mem_append]
      rcases Nat.lt_or_ge i k with hik | hik
      · exact Or.inl (h.complete i hik)
      · have : i = k := by omega
        rw [this, hr0D]
        exact Or.inr (by simp)
    · intro kv' hkv'
      rw [List.mem_append] at hkv'
      rcases hkv' with hkv' | hkv'
      · obtain ⟨i, hik, hieq⟩ := h.keys_from kv' hkv'
        exact ⟨i, by omega, hieq⟩
      · rw [List.mem_singleton] at hkv'
        refine ⟨k, by omega, ?_⟩
        rw [hkv', hr0D]

theorem buildInv_final (arr : List Station) (pM : List ℕ) (hgM : UFGood arr.length pM) :
    BuildInv arr pM arr.length (buildClusterFold arr pM) := by
  have H : ∀ m, m ≤ arr.length → BuildInv arr pM m
      ((List.range m).foldl (fun acc i =>
        (pushToCluster acc.1 (findAux acc.2.length acc.2 i).1 (arr.getD i default),
         (findAux acc.2.length acc.2 i).2)) ([], pM)) := by
    intro m
    induction m with
    | zero =>
      intro _
      exact buildInv_init arr pM hgM
    | succ m ih =>
      intro hm
      rw [List.range_succ, List.foldl_append, List.foldl_cons, List.foldl_nil]
      exact buildInv_step arr pM hgM m (by omega) _ (ih (by omega))
  exact H arr.length (le_refl _)

theorem groupStations_pipeline (calcDist : Station → Station → ℚ)
    (hsymm : ∀ a b, calcDist a b = calcDist b a)
    (stops : List (String × Stop)) (D : ℚ) :
    ∃ s : UFState,
      MergeInv calcDist (stopsArrayOf stops) D s ∧
      BuildInv (stopsArrayOf stops) s.parent (stopsArrayOf stops).length
        (buildClusterFold (stopsArrayOf stops) s.parent) ∧
      groupStations calcDist stops D =
        (buildClusterFold (stopsArrayOf stops) s.parent).1.map fun kv => mkGroup kv.2 := by
  refine ⟨(stableSort (fun a b : MergeCand => decide (a.dist ≤ b.dist))
      (buildMergeQueue calcDist (stopsArrayOf stops) D)).foldl
      (mergeStep calcDist (stopsArrayOf stops) D)
      ⟨List.range (stopsArrayOf stops).length,
       (List.range (stopsArrayOf stops).length).map fun i => [i]⟩, ?_, ?_, rfl⟩
  · exact mergeInv_fold calcDist (stopsArrayOf stops) D hsymm _ _
      (fun c hc => buildMergeQueue_bounds calcDist (stopsArrayOf stops) D c
        ((mem_stableSort _ _ c).1 hc))
      (mergeInv_init calcDist (stopsArrayOf stops) D)
  · exact buildInv_final (stopsArrayOf stops) _
      (mergeInv_fold calcDist (stopsArrayOf stops) D hsymm _ _
        (fun c hc => buildMergeQueue_bounds calcDist (stopsArrayOf stops) D c
          ((mem_stableSort _ _ c).1 hc))
        (mergeInv_init calcDist (stopsArrayOf stops) D)).good

theorem count_flatMap_nat {γ : Type} (x : ℕ) (m : List γ) (f : γ → List ℕ) :
    (m.flatMap f).count x = (m.map fun kv => (f kv).count x).sum := by
  induction m with
  | nil => rfl
  | cons a t ih =>
    rw [List.flatMap_cons, List.count_append, List.map_cons, List.sum_cons, ih]

theorem sum_ite_count (y : ℕ) (ks : List ℕ) :
    (ks.map fun kk => if y = kk then 1 else 0).sum = ks.count y := by
  induction ks with
  | nil => rfl
  | cons kk t ih =>
    rw [List.map_cons, List.sum_cons, ih, List.count_cons]
    by_cases hy : y = kk
    · simp [hy, Nat.add_comm]
    · simp [hy, Ne.symm hy, Nat.add_comm]

theorem count_filter_range (x n : ℕ) (p : ℕ → Bool) :
    ((List.range n).filter p).count x = if x < n ∧ p x = true then 1 else 0 := by
  by_cases hx : x < n ∧ p x = true
  · rw [if_pos hx]
    exact List.count_eq_one_of_mem ((List.nodup_range n).filter p)
      (List.mem_filter.2 ⟨List.mem_range.2 hx.1, hx.2⟩)
  · rw [if_neg hx]
    refine List.count_eq_zero_of_not_mem ?_
    intro hc
    rw [List.mem_filter, List.mem_range] at hc
    exact hx ⟨hc.1, hc.2⟩

theorem count_range_eq (x n : ℕ) : (List.range n).count x = if x < n then 1 else 0 := by
  by_cases hx : x < n
  · rw [if_pos hx]
    exact List.count_eq_one_of_mem (List.nodup_range n) (List.mem_range.2 hx)
  · rw [if_neg hx]
    exact List.count_eq_zero_of_not_mem (fun hc => hx (List.mem_range.1 hc))

theorem flatMap_filter_range_perm (n : ℕ) (pM : List ℕ) (m : List (ℕ × List Station))
    (hnodup : (m.map Prod.fst).Nodup)
    (hcomplete : ∀ i, i < n → ufRootD pM i ∈ m.map Prod.fst) :
    (m.flatMap fun kv => (List.range n).filter fun i =>
      decide (ufRootD pM i = kv.1)).Perm (List.range n) := by
  rw [List.perm_iff_count]
  intro x
  rw [count_flatMap_nat, count_range_eq]
  by_cases hx : x < n
  · rw [if_pos hx]
    have h1 : (m.map fun kv => (((List.range n).filter fun i =>
        decide (ufRootD pM i = kv.1)).count x)) =
        m.map fun kv => if ufRootD pM x = kv.1 then 1 else 0 := by
      apply List.map_congr_left
      intro kv _
      rw [count_filter_range]
      by_cases hk : ufRootD pM x = kv.1
      · rw [if_pos ⟨hx, decide_eq_true hk⟩, if_pos hk]
      · rw [if_neg (fun hc => hk (of_decide_eq_true hc.2)), if_neg hk]
    rw [h1]
    have h2 : (m.map fun kv => if ufRootD pM x = kv.1 then 1 else 0) =
        (m.map Prod.fst).map fun kk => if ufRootD pM x = kk then 1 else 0 := by
      rw [List.map_map]
      rfl
    rw [h2, sum_ite_count]
    exact List.count_eq_one_of_mem hnodup (hcomplete x hx)
  · rw [if_neg hx]
    have h1 : (m.map fun kv => (((List.range n).filter fun i =>
        decide (ufRootD pM i = kv.1)).count x)) = m.map fun _ => 0 := by
      apply List.map_congr_left
      intro kv _
      rw [count_filter_range, if_neg (fun hc => hx hc.1)]
    rw [h1]
    simp

theorem flatMap_congr_mem {α β : Type} {l : List α} {f g : α → List β}
    (h : ∀ a ∈ l, f a = g a) : l.flatMap f = l.flatMap g := by
  induction l with
  | nil => rfl
  | cons a t ih =>
    rw [List.flatMap_cons, List.flatMap_cons, h a (List.mem_cons_self a t),
      ih fun b hb => h b (List.mem_cons_of_mem a hb)]

theorem flatMap_map_eq {α β γ : Type} (l : List α) (g : α → β) (f : β → List γ) :
    (l.map g).flatMap f = l.flatMap fun a => f (g a) := by
  induction l with
  | nil => rfl
  | cons a t ih =>
    rw [List.map_cons, List.flatMap_cons, List.flatMap_cons, ih]

theorem flatMap_perm_congr {α β : Type} {l : List α} {f g : α → List β}
    (h : ∀ a ∈ l, (f a).Perm (g a)) : (l.flatMap f).Perm (l.flatMap g) := by
  induction l with
  | nil => exact List.Perm.refl _
  | cons a t ih =>
    rw [List.flatMap_cons, List.flatMap_cons]
    exact (h a (List.mem_cons_self a t)).append
      (ih fun b hb => h b (List.mem_cons_of_mem a hb))

theorem map_getD_range (arr : List Station) :
    ((List.range arr.length).map fun i => arr.getD i default) = arr := by
  apply List.ext_getElem
  · simp
  · intro i h1 h2
    rw [List.getElem_map, List.getElem_range]
    exact List.getD_eq_getElem arr default h2

theorem clusterMap_stations_perm (arr : List Station) (pM : List ℕ)
    (m : List (ℕ × List Station))
    (hnodup : (m.map Prod.fst).Nodup)
    (hbuckets : ∀ kv ∈ m, kv.2 = ((List.range arr.length).filter fun i =>
      decide (ufRootD pM i = kv.1)).map fun i => arr.getD i default)
    (hcomplete : ∀ i, i < arr.length → ufRootD pM i ∈ m.map Prod.fst) :
    (m.flatMap fun kv => kv.2).Perm arr := by
  rw [flatMap_congr_mem hbuckets]
  have h2 : (m.flatMap fun kv => ((List.range arr.length).filter fun i =>
      decide (ufRootD pM i = kv.1)).map fun i => arr.getD i default) =
      (m.flatMap fun kv => (List.range arr.length).filter fun i =>
        decide (ufRootD pM i = kv.1)).map fun i => arr.getD i default := by
    rw [List.map_flatMap]
  rw [h2]
  have h3 := flatMap_filter_range_perm arr.length pM m hnodup hcomplete
  have h4 := map_getD_range arr
  exact (h3.map fun i => arr.getD i default).trans (by rw [h4])

theorem mkGroup_stations_perm (sts : List Station) : (mkGroup sts).stations.Perm sts := by
  rcases sts with _ | ⟨a, _ | ⟨b, t⟩⟩
  · exact stableSort_perm
      (fun a b => decide (localeCompareM a.stop_name b.stop_name ≤ 0)) []
  · exact List.Perm.refl _
  · exact stableSort_perm _ _

theorem nodup_getD_inj {l : List Station} (h : l.Nodup) {i j : ℕ}
    (hi : i < l.length) (hj : j < l.length)
    (he : l.getD i default = l.getD j default) : i = j := by
  rw [List.getD_eq_getElem l default hi, List.getD_eq_getElem l default hj] at he
  exact (List.Nodup.getElem_inj_iff h).1 he

theorem getD_mem (l : List α) (i : ℕ) (d : α) (h : i < l.length) : l.getD i d ∈ l := by
  rw [List.getD_eq_getElem l d h]
  exact List.getElem_mem h

theorem stopsArray_ids_sublist (stops : List (String × Stop)) :
    ((stopsArrayOf stops).map (·.stop_id)).Sublist (stops.map Prod.fst) := by
  induction stops with
  | nil => simp [stopsArrayOf]
  | cons p t ih =>
    rw [List.map_cons]
    cases hla : p.2.stop_lat with
    | none =>
      have hstep : stopsArrayOf (p :: t) = stopsArrayOf t := by
        unfold stopsArrayOf
        rw [List.filterMap_cons]
        simp only [hla]
      rw [hstep]
      exact ih.cons p.1
    | some la =>
      cases hlo : p.2.stop_lon with
      | none =>
        have hstep : stopsArrayOf (p :: t) = stopsArrayOf t := by
          unfold stopsArrayOf
          rw [List.filterMap_cons]
          simp only [hla, hlo]
        rw [hstep]
        exact ih.cons p.1
      | some lo =>
        have hstep : stopsArrayOf (p :: t) =
            { stop_id := p.1, stop_name := p.2.stop_name,
              stop_country := p.2.stop_country, lat := la, lon := lo } ::
            stopsArrayOf t := by
          unfold stopsArrayOf
          rw [List.filterMap_cons]
          simp only [hla, hlo]
        rw [hstep, List.map_cons]
        exact ih.cons₂ p.1

theorem lineDist_symm : ∀ a b : Station, lineDist a b = lineDist b a := by
  intro a b
  unfold lineDist
  congr 2
  omega

/-- **C1** — For every input station set and threshold `D`, every multi-member
`StationGroup` produced by `groupStations` satisfies the complete-linkage
constraint: the distance between any two of its member stations is at most
`D` (for any symmetric distance function, in particular the great-circle
distance); this holds of the final group composition. -/
theorem claim_C1_complete_linkage (calcDist : Station → Station → ℚ)
    (hsymm : ∀ a b, calcDist a b = calcDist b a)
    (stops : List (String × Stop)) (D : ℚ) :
    ∀ g ∈ groupStations calcDist stops D, g.isGroup = true →
      ∀ a ∈ g.stations, ∀ b ∈ g.stations, a ≠ b → calcDist a b ≤ D := by
  obtain ⟨s, hM, hB, heq⟩ := groupStations_pipeline calcDist hsymm stops D
  intro g hg _ a ha b hb hab
  rw [heq, List.mem_map] at hg
  obtain ⟨kv, hkv, hgkv⟩ := hg
  rw [← hgkv] at ha hb
  have ha' : a ∈ kv.2 := (mkGroup_stations_perm kv.2).mem_iff.1 ha
  have hb' : b ∈ kv.2 := (mkGroup_stations_perm kv.2).mem_iff.1 hb
  rw [hB.buckets kv hkv, List.mem_map] at ha' hb'
  obtain ⟨ia, hia, hiaeq⟩ := ha'
  obtain ⟨ib, hib, hibeq⟩ := hb'
  rw [List.mem_filter, List.mem_range] at hia hib
  have hgood : UFGood (stopsArrayOf stops).length s.parent := hM.good
  obtain ⟨i0, hi0n, hi0r⟩ := hB.keys_from kv hkv
  have hkvroot : IsRootOf s.parent i0 kv.1 := hi0r ▸ ufRootD_isRootOf hgood hi0n
  have hrootkv : IsUFRoot s.parent kv.1 := hkvroot.2
  have hkvlt : kv.1 < (stopsArrayOf stops).length := root_lt hgood hi0n hkvroot
  have hmem : ∀ i, i < (stopsArrayOf stops).length → ufRootD s.parent i = kv.1 →
      i ∈ s.clusterStations.getD kv.1 [] := by
    intro i hi hri
    exact (hM.mem_iff kv.1 hrootkv hkvlt i).2
      ⟨hi, (isRootOf_iff_ufRootD hgood hi).2 hri.symm⟩
  have hia' := hmem ia hia.1 (of_decide_eq_true hia.2)
  have hib' := hmem ib hib.1 (of_decide_eq_true hib.2)
  have hne : ia ≠ ib := by
    intro hcon
    rw [hcon, hibeq] at hiaeq
    exact hab hiaeq.symm
  have hlink := hM.linkage kv.1 hrootkv hkvlt ia hia' ib hib' hne
  rw [hiaeq, hibeq] at hlink
  exact hlink

/-- Witness for **C1**: in the concrete run on the four equator stations at
longitudes 0, 4, 7 and 9 with threshold 4, the first produced group is a
multi-member group and its first two member stations are within distance 4. -/
theorem claim_C1_witness :
    (∀ a b : Station, lineDist a b = lineDist b a) ∧
    ((groupStations lineDist c3SizeStops (intToRat 4)).getD 0 default).isGroup = true ∧
    lineDist
      (((groupStations lineDist c3SizeStops (intToRat 4)).getD 0
        default).stations.getD 0 default)
      (((groupStations lineDist c3SizeStops (intToRat 4)).getD 0
        default).stations.getD 1 default) ≤ intToRat 4 := by
  refine ⟨lineDist_symm, by decide, ?_⟩
  exact claim_C1_complete_linkage lineDist lineDist_symm c3SizeStops (intToRat 4)
    ((groupStations lineDist c3SizeStops (intToRat 4)).getD 0 default)
    (getD_zero_mem _ _ (by decide))
    (by decide)
    (((groupStations lineDist c3SizeStops (intToRat 4)).getD 0
      default).stations.getD 0 default)
    (getD_mem _ 0 default (by decide))
    (((groupStations lineDist c3SizeStops (intToRat 4)).getD 0
      default).stations.getD 1 default)
    (getD_mem _ 1 default (by decide))
    (by decide)

/-- **C2** — The groups returned by `groupStations` partition the valid
stations: the concatenation of all groups' member lists is a permutation of
`stopsArray` (the input stations whose coordinates parse, with the
invalid-coordinate entries excluded by construction), and — when the input
keys are distinct, as they always are for a JavaScript object — every valid
station lies in the member list of exactly one group. -/
theorem claim_C2_partition (calcDist : Station → Station → ℚ)
    (hsymm : ∀ a b, calcDist a b = calcDist b a)
    (stops : List (String × Stop)) (D : ℚ) :
    (((groupStations calcDist stops D).flatMap fun g => g.stations).Perm
      (stopsArrayOf stops)) ∧
    ((stops.map Prod.fst).Nodup →
      ∀ st ∈ stopsArrayOf stops,
        ((groupStations calcDist stops D).countP fun g =>
          decide (st ∈ g.stations)) = 1) := by
  obtain ⟨s, hM, hB, heq⟩ := groupStations_pipeline calcDist hsymm stops D
  have hgood : UFGood (stopsArrayOf stops).length s.parent := hM.good
  constructor
  · rw [heq, flatMap_map_eq]
    have hflat : (((buildClusterFold (stopsArrayOf stops) s.parent).1).flatMap
        fun kv => (mkGroup kv.2).stations).Perm
        (((buildClusterFold (stopsArrayOf stops) s.parent).1).flatMap fun kv => kv.2) :=
      flatMap_perm_congr fun kv _ => mkGroup_stations_perm kv.2
    exact hflat.trans (clusterMap_stations_perm (stopsArrayOf stops) s.parent _
      hB.keys_nodup hB.buckets hB.complete)
  · intro hnodup st hst
    have harrN : (stopsArrayOf stops).Nodup :=
      ((stopsArray_ids_sublist stops).nodup hnodup).of_map _
    obtain ⟨i0, hi0n, hi0⟩ : ∃ i0, i0 < (stopsArrayOf stops).length ∧
        (stopsArrayOf stops).getD i0 default = st := by
      obtain ⟨i0, hi0n, hi0⟩ := List.mem_iff_getElem.1 hst
      exact ⟨i0, hi0n, by rw [List.getD_eq_getElem _ default hi0n]; exact hi0⟩
    rw [heq, List.countP_map]
    have hpoint : ∀ kv ∈ (buildClusterFold (stopsArrayOf stops) s.parent).1,
        ((fun g => decide (st ∈ g.stations)) ∘ fun kv => mkGroup kv.2) kv =
        ((fun kv : ℕ × List Station => decide (ufRootD s.parent i0 = kv.1)) kv) := by
      intro kv hkv
      dsimp only [Function.comp]
      have h1 : st ∈ (mkGroup kv.2).stations ↔ st ∈ kv.2 :=
        (mkGroup_stations_perm kv.2).mem_iff
      have h2 : st ∈ kv.2 ↔ ufRootD s.parent i0 = kv.1 := by
        rw [hB.buckets kv hkv, List.mem_map]
        constructor
        · rintro ⟨i, hi, hieq⟩
          rw [List.mem_filter, List.mem_range] at hi
          have hii0 : i = i0 := nodup_getD_inj harrN hi.1 hi0n (hieq.trans hi0.symm)
          rw [← hii0]
          exact of_decide_eq_true hi.2
        · intro hroot
          exact ⟨i0, List.mem_filter.2 ⟨List.mem_range.2 hi0n, decide_eq_true hroot⟩, hi0⟩
      exact decide_eq_decide.2 (h1.trans h2)
    rw [List.countP_congr (fun kv hkv => by rw [hpoint kv hkv])]
    have hcnt : (((buildClusterFold (stopsArrayOf stops) s.parent).1).countP
        fun kv => decide (ufRootD s.parent i0 = kv.1)) =
        (((buildClusterFold (stopsArrayOf stops) s.parent).1).map Prod.fst).count
          (ufRootD s.parent i0) := by
      rw [List.count, List.countP_map]
      apply List.countP_congr
      intro kv _
      dsimp only [Function.comp]
      rw [decide_eq_true_eq, beq_iff_eq]
      exact eq_comm
    rw [hcnt]
    exact List.count_eq_one_of_mem hB.keys_nodup (hB.complete i0 hi0n)

/-- Witness for **C2**: in the concrete run on the four equator stations with
threshold 4, the first valid station lies in exactly one group. -/
theorem claim_C2_witness :
    (c3SizeStops.map Prod.fst).Nodup ∧
    (stopsArrayOf c3SizeStops).getD 0 default ∈ stopsArrayOf c3SizeStops ∧
    ((groupStations lineDist c3SizeStops (intToRat 4)).countP fun g =>
      decide ((stopsArrayOf c3SizeStops).getD 0 default ∈ g.stations)) = 1 := by
  refine ⟨by decide, by decide, ?_⟩
  exact (claim_C2_partition lineDist lineDist_symm c3SizeStops (intToRat 4)).2
    (by decide) ((stopsArrayOf c3SizeStops).getD 0 default) (by decide)

end NightTrain
